import Mathlib

/-!
Verification development for the `gbfhs` bidirectional-search repository
(n-pancake domain: GBFHS and MMe controllers, plus the pancake A* baseline).

The C++ sources are shallowly embedded: `std::unordered_set<Node,...>` keyed
by the node's state becomes a `List Node` with state-keyed membership, C++
`int` becomes `Int` (no modelled quantity approaches 2^31, and `INT_MAX` is
kept as the literal sentinel), and the unbounded loops take an explicit fuel
argument (`none` = fuel exhausted).  The random pick in GBFHS becomes an
explicit list of combined indices, one consumed per expansion; an index out
of range aborts the run with `none`.
-/

namespace PancakeSearch

/-- Search direction, from `pancake.h` / `gbfhs.h`. -/
inductive Direction where
  | F : Direction
  | B : Direction
deriving DecidableEq, Repr

/-- Search node, from `pancake.h` / `gbfhs.h`: a pancake stack together with
path costs from both sides, heuristic values for both sides, and the
direction it was generated in. -/
structure Node where
  s : List Int
  g_F : Int
  g_B : Int
  h_F : Int
  h_B : Int
  dir : Direction
deriving DecidableEq, Repr

/-- The unsolvable sentinel (`INT_MAX` from `<limits.h>`). -/
def INT_MAX : Int := 2147483647

/-- `is_solved` from `pancake.cpp` (the copy in `gbfhs.cpp` is identical):
sizes must match and the entries must agree elementwise. -/
def is_solved (s g : List Int) : Bool :=
  if s.length ≠ g.length then false
  else (List.zip s g).all fun p => p.1 == p.2

/-- `flip` from `pancake.cpp`/`gbfhs.cpp`: swapping positions `i`/`j` inward
from `0`/`k` reverses the prefix of length `k + 1` and keeps the rest. -/
def flip (s : List Int) (k : Nat) : List Int :=
  (s.take (k + 1)).reverse ++ s.drop (k + 1)

/-- The GAP-x gap count shared by both heuristic functions: the number of
indices `i` with `gap_x <= i < n` (where `n = s.size() - 1`) such that
`|s[i] - s[i+1]| > 1`. -/
def gapCount (s : List Int) (gap_x : Nat) : Int :=
  Int.ofNat (((List.range (s.length - 1)).filter fun i =>
    decide (gap_x ≤ i) && decide (1 < (s.getD i 0 - s.getD (i + 1) 0).natAbs)).length)

/-- `h` from `gbfhs.cpp`: GAP-x with the hard-coded `GAP_X = 10`, the
direction argument is unused. -/
def h_gbfhs (s : List Int) (_dir : Direction) : Int :=
  gapCount s 10

/-- `h` from `pancake.cpp`: blind (0) heuristic in the backward direction,
GAP-x in the forward direction. -/
def h_pancake (s : List Int) (dir : Direction) (gap_x : Nat) : Int :=
  match dir with
  | .B => 0
  | .F => gapCount s gap_x

/-- `NodeEqual` from `pancake.h`/`gbfhs.h`: nodes are compared by state
only, never by their cost fields. -/
def nodeEqual (a b : Node) : Bool :=
  a.s == b.s

/-- `unordered_set::count` (by state). -/
def setCount (t : List Node) (x : Node) : Bool :=
  t.any fun y => nodeEqual y x

/-- `unordered_set::find` (by state). -/
def setFind (t : List Node) (x : Node) : Option Node :=
  t.find? fun y => nodeEqual y x

/-- `unordered_set::erase` (by state). -/
def setErase (t : List Node) (x : Node) : List Node :=
  t.filter fun y => !nodeEqual y x

/-- `unordered_set::insert` / `emplace`: a no-op when a node with the same
state is already present. -/
def setInsert (t : List Node) (x : Node) : List Node :=
  if setCount t x then t else t ++ [x]

/-- `is_expandable` from `gbfhs.cpp`: `f_D(node) <= fLim && g_D(node) < gLim_D`. -/
def is_expandable (node : Node) (dir : Direction) (fLim gLim_D : Int) : Bool :=
  match dir with
  | .F => decide (node.g_F + node.h_F ≤ fLim) && decide (node.g_F < gLim_D)
  | .B => decide (node.g_B + node.h_B ≤ fLim) && decide (node.g_B < gLim_D)

/-- `split` from `gbfhs.cpp`: `gLim_B = gLSum / 2; gLim_F = gLSum - gLim_B`
(C++ `int` division truncates toward zero, hence `Int.tdiv`).  The incoming
values of the two reference parameters are never read. -/
def split (gLSum gLim_F gLim_B : Int) : Int × Int :=
  (gLSum - Int.tdiv gLSum 2, Int.tdiv gLSum 2)

/-- `expand` from `gbfhs.cpp`: all states one k-flip away (`1 <= k < n`),
with the direction's g-cost incremented by the unit edge cost and both
heuristic values recomputed; collected into an `unordered_set`, so
duplicate states are dropped.  (The source also bumps the global
`nodes_expanded` counter here; the GBFHS model does not track it.) -/
def expandNode (node : Node) : List Node :=
  let n := node.s.length - 1
  (List.range' 1 (n - 1)).foldl
    (fun acc k =>
      let s_flip := flip node.s k
      let succ : Node :=
        match node.dir with
        | .F => ⟨s_flip, node.g_F + 1, node.g_B, h_gbfhs s_flip .F, h_gbfhs s_flip .B, .F⟩
        | .B => ⟨s_flip, node.g_F, node.g_B + 1, h_gbfhs s_flip .F, h_gbfhs s_flip .B, .B⟩
      setInsert acc succ)
    []

/-- The mutable state of `expand_level` in `gbfhs.cpp`: the bound `best`,
the per-direction open/closed sets, the per-level expandable subsets, and a
flag recording that the early `return` on `best <= fLim` has fired. -/
structure GState where
  best : Int
  open_F : List Node
  open_B : List Node
  closed_F : List Node
  closed_B : List Node
  expandable_F : List Node
  expandable_B : List Node
  stopped : Bool
deriving DecidableEq, Repr

/-- The forward successor-processing block of `expand_level`
(`gbfhs.cpp` lines 246-270): skip when the state is open-or-closed forward
and `g_F(node) + 1 >= g_F(s_node)` (note: `s_node.g_F` is the successor's
own field, just set to `g_F(node) + 1` by `expand`, not the stored cost);
otherwise evict from open/closed, record `g_F(node) + 1`, re-insert into
open (and into the expandable set when within limits), and on collision
with `open_B` update `best` and fire the early return when
`best <= fLim`. -/
def processSuccF (fLim gLim_F : Int) (node : Node) (st : GState) (s_node : Node) : GState :=
  if st.stopped then st
  else
    let mem := setCount st.open_F s_node || setCount st.closed_F s_node
    if mem && decide (node.g_F + 1 ≥ s_node.g_F) then st
    else
      let open1 := if mem then setErase st.open_F s_node else st.open_F
      let closed1 := if mem then setErase st.closed_F s_node else st.closed_F
      let s1 : Node := { s_node with g_F := node.g_F + 1 }
      let open2 := setInsert open1 s1
      let exp1 := if is_expandable s1 .F fLim gLim_F then setInsert st.expandable_F s1
                  else st.expandable_F
      match setFind st.open_B s1 with
      | some m =>
          let s2 : Node := { s1 with g_B := max s1.g_B m.g_B }
          let best' := min st.best (s2.g_F + s2.g_B)
          { st with open_F := open2, closed_F := closed1, expandable_F := exp1,
                    best := best', stopped := decide (best' ≤ fLim) }
      | none =>
          { st with open_F := open2, closed_F := closed1, expandable_F := exp1 }

/-- The backward successor-processing block of `expand_level`
(`gbfhs.cpp` lines 277-301).  The source's skip test compares
`node.g_F + 1 >= s_node.g_F` even though its own comment on line 278 reads
`g_B(node) + cost(node, s_node) >= g_B(s_node)`; the model keeps the code's
behaviour. -/
def processSuccB (fLim gLim_B : Int) (node : Node) (st : GState) (s_node : Node) : GState :=
  if st.stopped then st
  else
    let mem := setCount st.open_B s_node || setCount st.closed_B s_node
    if mem && decide (node.g_F + 1 ≥ s_node.g_F) then st
    else
      let open1 := if mem then setErase st.open_B s_node else st.open_B
      let closed1 := if mem then setErase st.closed_B s_node else st.closed_B
      let s1 : Node := { s_node with g_B := node.g_B + 1 }
      let open2 := setInsert open1 s1
      let exp1 := if is_expandable s1 .B fLim gLim_B then setInsert st.expandable_B s1
                  else st.expandable_B
      match setFind st.open_F s1 with
      | some m =>
          let s2 : Node := { s1 with g_F := max s1.g_F m.g_F }
          let best' := min st.best (s2.g_B + s2.g_F)
          { st with open_B := open2, closed_B := closed1, expandable_B := exp1,
                    best := best', stopped := decide (best' ≤ fLim) }
      | none =>
          { st with open_B := open2, closed_B := closed1, expandable_B := exp1 }

/-- One iteration of the `while` body of `expand_level`: move the picked
node from its open set (and expandable set) to its closed set, then process
each of its successors in turn. -/
def expandOneG (fLim gLim_F gLim_B : Int) (node : Node) (st : GState) : GState :=
  match node.dir with
  | .F =>
      let st1 := { st with expandable_F := setErase st.expandable_F node,
                           open_F := setErase st.open_F node,
                           closed_F := setInsert st.closed_F node }
      (expandNode node).foldl (processSuccF fLim gLim_F node) st1
  | .B =>
      let st1 := { st with expandable_B := setErase st.expandable_B node,
                           open_B := setErase st.open_B node,
                           closed_B := setInsert st.closed_B node }
      (expandNode node).foldl (processSuccB fLim gLim_B node) st1

/-- `pick` from `gbfhs.cpp`: a combined index into the forward expandable
set followed by the backward one; `none` when the index is out of range. -/
def pickNode (expandable_F expandable_B : List Node) (i : Nat) : Option Node :=
  if i < expandable_F.length then expandable_F.get? i
  else expandable_B.get? (i - expandable_F.length)

/-- The `while` loop of `expand_level`, consuming one pick index per
expansion; returns the final level state and the unconsumed indices, or
`none` when the supplied index sequence is exhausted or invalid. -/
def levelLoop (fLim gLim_F gLim_B : Int) : List Nat → GState → Option (GState × List Nat)
  | picks, st =>
    if st.stopped then some (st, picks)
    else if st.expandable_F.isEmpty && st.expandable_B.isEmpty then some (st, picks)
    else
      match picks with
      | [] => none
      | i :: rest =>
          match pickNode st.expandable_F st.expandable_B i with
          | none => none
          | some node => levelLoop fLim gLim_F gLim_B rest (expandOneG fLim gLim_F gLim_B node st)

/-- `expand_level` from `gbfhs.cpp`: build the expandable subsets of both
open sets under the current limits, then run the level loop. -/
def expand_level (fLim gLim_F gLim_B : Int) (picks : List Nat) (st : GState) :
    Option (GState × List Nat) :=
  levelLoop fLim gLim_F gLim_B picks
    { st with
      expandable_F := st.open_F.filter fun n => is_expandable n .F fLim gLim_F,
      expandable_B := st.open_B.filter fun n => is_expandable n .B fLim gLim_B,
      stopped := false }

/-- The outer `while` loop of `gbfhs` (lines 328-341): return `best` when a
side's open set is empty or `best == fLim`; otherwise split
`gLSum = fLim - eps + 1`, expand the level, re-check `best == fLim`, and
continue with `fLim + 1`.  (`split` ignores the incoming limit values, which
are uninitialized on the first C++ call; the model passes 0.) -/
def gbfhsLoop (eps : Int) : Nat → List Nat → Int → GState → Option Int
  | 0, _, _, _ => none
  | Nat.succ fuel, picks, fLim, st =>
    if st.open_F.isEmpty || st.open_B.isEmpty then some st.best
    else if st.best == fLim then some st.best
    else
      let gLSum := fLim - eps + 1
      let lims := split gLSum 0 0
      match expand_level fLim lims.1 lims.2 picks st with
      | none => none
      | some (st', picks') =>
          if st'.best == fLim then some st'.best
          else gbfhsLoop eps fuel picks' (fLim + 1) st'

/-- `gbfhs` from `gbfhs.cpp`: answer 0 immediately when the initial state is
already the goal; otherwise run the outer loop from
`fLim = max(max(h(initial, F), h(goal, B)), eps)` with the two root nodes
(the backward root carries zero heuristic fields). -/
def gbfhs (fuel : Nat) (picks : List Nat) (initial_state goal_state : List Int) (eps : Int) :
    Option Int :=
  if is_solved initial_state goal_state then some 0
  else
    let root_F : Node := ⟨initial_state, 0, 0, h_gbfhs initial_state .F,
                          h_gbfhs initial_state .B, .F⟩
    let root_B : Node := ⟨goal_state, 0, 0, 0, 0, .B⟩
    let fLim := max (max (h_gbfhs initial_state .F) (h_gbfhs goal_state .B)) eps
    gbfhsLoop eps fuel picks fLim ⟨INT_MAX, [root_F], [root_B], [], [], [], [], false⟩

/-- `expand` from `pancake.cpp`, as used by `mme.cpp`: all states one
k-flip away, in ascending `k` order, collected into a vector (no
de-duplication).  The vector constructor in `pancake.cpp` passes only the
state and direction, which does not match the six-field `Node` constructor
of `pancake.h` that `mme.cpp`'s field accesses require (a draft
inconsistency between the files); the cost bookkeeping is therefore taken
from the `expand` of `gbfhs.cpp`: the direction's g-cost is incremented by
the unit edge cost and both heuristic values are recomputed with
`pancake.cpp`'s GAP-x/blind `h`. -/
def expandPancake (node : Node) (gap_x : Nat) : List Node :=
  let n := node.s.length - 1
  (List.range' 1 (n - 1)).map fun k =>
    let s_flip := flip node.s k
    match node.dir with
    | .F => ⟨s_flip, node.g_F + 1, node.g_B, h_pancake s_flip .F gap_x,
             h_pancake s_flip .B gap_x, .F⟩
    | .B => ⟨s_flip, node.g_F, node.g_B + 1, h_pancake s_flip .F gap_x,
             h_pancake s_flip .B gap_x, .B⟩

/-- The mutable state of `mme`: the bound `U`, the per-direction
open/closed sets, and the expansion counter. -/
structure MState where
  U : Int
  open_F : List Node
  open_B : List Node
  closed_F : List Node
  closed_B : List Node
  nodes_expanded : Int
deriving DecidableEq, Repr

/-- `pr` from `mme.cpp`: `max(f_D(n), 2 g_D(n) + eps)`. -/
def pr (node : Node) (eps : Int) (dir : Direction) : Int :=
  match dir with
  | .F => max (node.g_F + node.h_F) (2 * node.g_F + eps)
  | .B => max (node.g_B + node.h_B) (2 * node.g_B + eps)

/-- Accumulator of `scan` in `mme.cpp`: the optimal node so far, its
tie-breaking `g_D`, and the running minima `prmin_D`, `fmin_D`, `gmin_D`. -/
structure ScanAcc where
  opt : Node
  g_D : Int
  prmin : Int
  fmin : Int
  gmin : Int
deriving DecidableEq, Repr

/-- The loop body of `scan`: strictly smaller priority takes over the
optimal node; equal priority with strictly smaller `g_D` takes over;
`fmin`/`gmin` are folded in unconditionally. -/
def scanStep (eps : Int) (dir : Direction) (acc : ScanAcc) (node : Node) : ScanAcc :=
  let pr_D := pr node eps dir
  let acc1 :=
    if pr_D < acc.prmin then
      { acc with opt := node, prmin := pr_D,
                 g_D := match dir with | .F => node.g_F | .B => node.g_B }
    else if pr_D == acc.prmin then
      match dir with
      | .F => if node.g_F < acc.g_D then { acc with opt := node, g_D := node.g_F } else acc
      | .B => if node.g_B < acc.g_D then { acc with opt := node, g_D := node.g_B } else acc
    else acc
  match dir with
  | .F => { acc1 with fmin := min acc1.fmin (node.g_F + node.h_F),
                      gmin := min acc1.gmin node.g_F }
  | .B => { acc1 with fmin := min acc1.fmin (node.g_B + node.h_B),
                      gmin := min acc1.gmin node.g_B }

/-- `scan` from `mme.cpp`: fold over the open set, starting from the first
element as the optimal candidate with all minima at `INT_MAX` (the C++
asserts the set non-empty; the model supplies a dummy head default that is
never selected on a non-empty set). -/
def scan (open_D : List Node) (eps : Int) (dir : Direction) : ScanAcc :=
  open_D.foldl (scanStep eps dir)
    ⟨open_D.headD ⟨[], 0, 0, 0, 0, dir⟩, INT_MAX, INT_MAX, INT_MAX, INT_MAX⟩

/-- The local `old_s_node_g_F` of `mme.cpp` (lines 133-139): the currently
recorded forward cost of a state, read from the open set first, then from
the closed set, `INT_MAX` when the state is unknown. -/
def old_g_F (st : MState) (s_node : Node) : Int :=
  match setFind st.open_F s_node with
  | some m => m.g_F
  | none =>
      match setFind st.closed_F s_node with
      | some m => m.g_F
      | none => INT_MAX

/-- The local `old_s_node_g_B` of `mme.cpp` (lines 165-171), symmetric. -/
def old_g_B (st : MState) (s_node : Node) : Int :=
  match setFind st.open_B s_node with
  | some m => m.g_B
  | none =>
      match setFind st.closed_B s_node with
      | some m => m.g_B
      | none => INT_MAX

/-- The forward successor-processing block of `mme` (`mme.cpp` lines
132-157): read the stored `g_F` from open-then-closed (defaulting to
`INT_MAX`), skip when the state is known with
`g_F(node) + 1 >= old g_F`; otherwise evict from open/closed, record
`g_F(node) + 1`, re-insert into open, and on collision with `open_B` set
`U = min(U, g_F(s_node) + g_B as stored in open_B)`. -/
def processMSuccF (node : Node) (st : MState) (s_node : Node) : MState :=
  let inOp := setCount st.open_F s_node
  let inCl := setCount st.closed_F s_node
  if (inOp || inCl) && decide (node.g_F + 1 ≥ old_g_F st s_node) then st
  else
    let open1 := if inOp || inCl then setErase st.open_F s_node else st.open_F
    let closed1 := if inOp || inCl then setErase st.closed_F s_node else st.closed_F
    let s1 : Node := { s_node with g_F := node.g_F + 1 }
    let open2 := setInsert open1 s1
    match setFind st.open_B s1 with
    | some m => { st with open_F := open2, closed_F := closed1,
                          U := min st.U (s1.g_F + m.g_B) }
    | none => { st with open_F := open2, closed_F := closed1 }

/-- The backward successor-processing block of `mme` (`mme.cpp` lines
164-189), symmetric to the forward one and comparing `g_B` values. -/
def processMSuccB (node : Node) (st : MState) (s_node : Node) : MState :=
  let inOp := setCount st.open_B s_node
  let inCl := setCount st.closed_B s_node
  if (inOp || inCl) && decide (node.g_B + 1 ≥ old_g_B st s_node) then st
  else
    let open1 := if inOp || inCl then setErase st.open_B s_node else st.open_B
    let closed1 := if inOp || inCl then setErase st.closed_B s_node else st.closed_B
    let s1 : Node := { s_node with g_B := node.g_B + 1 }
    let open2 := setInsert open1 s1
    match setFind st.open_F s1 with
    | some m => { st with open_B := open2, closed_B := closed1,
                          U := min st.U (s1.g_B + m.g_F) }
    | none => { st with open_B := open2, closed_B := closed1 }

/-- One forward expansion of `mme`: move the node from open to closed,
count it (`expand` increments `nodes_expanded`), and process each successor
of the vector in order. -/
def mmeExpandF (gap_x : Nat) (node : Node) (st : MState) : MState :=
  let st1 := { st with open_F := setErase st.open_F node,
                       closed_F := setInsert st.closed_F node,
                       nodes_expanded := st.nodes_expanded + 1 }
  (expandPancake node gap_x).foldl (processMSuccF node) st1

/-- One backward expansion of `mme`, symmetric to `mmeExpandF`. -/
def mmeExpandB (gap_x : Nat) (node : Node) (st : MState) : MState :=
  let st1 := { st with open_B := setErase st.open_B node,
                       closed_B := setInsert st.closed_B node,
                       nodes_expanded := st.nodes_expanded + 1 }
  (expandPancake node gap_x).foldl (processMSuccB node) st1

/-- One iteration of `mme`'s main loop: exit with `(U, nodes_expanded)`
when a side's open set is empty; otherwise scan both open sets, check the
stopping inequality `U <= max(C, fmin_F, fmin_B, gmin_F + gmin_B + eps)`
with `C = min(prmin_F, prmin_B)` and exit when it holds; otherwise expand
the scanned node of the direction with the smaller `prmin` (ties go
forward, since `C == prmin_F` then). -/
def mmeStep (eps : Int) (gap_x : Nat) (st : MState) : (Int × Int) ⊕ MState :=
  if st.open_F.isEmpty || st.open_B.isEmpty then Sum.inl (st.U, st.nodes_expanded)
  else
    let sF := scan st.open_F eps .F
    let sB := scan st.open_B eps .B
    let C := min sF.prmin sB.prmin
    if st.U ≤ max (max C sF.fmin) (max sB.fmin (sF.gmin + sB.gmin + eps)) then
      Sum.inl (st.U, st.nodes_expanded)
    else if C == sF.prmin then Sum.inr (mmeExpandF gap_x sF.opt st)
    else Sum.inr (mmeExpandB gap_x sB.opt st)

/-- The `while` loop of `mme`, iterating `mmeStep` under fuel. -/
def mmeLoop (eps : Int) (gap_x : Nat) : Nat → MState → Option (Int × Int)
  | 0, _ => none
  | Nat.succ fuel, st =>
    match mmeStep eps gap_x st with
    | Sum.inl r => some r
    | Sum.inr st' => mmeLoop eps gap_x fuel st'

/-- The state after `n` expansion steps of `mme`'s loop (a stopped loop
stays put); used to speak about every state a run passes through. -/
def mmeIter (eps : Int) (gap_x : Nat) : Nat → MState → MState
  | 0, st => st
  | Nat.succ n, st =>
    match mmeStep eps gap_x st with
    | Sum.inl _ => st
    | Sum.inr st' => mmeIter eps gap_x n st'

/-- The initial search state of `mme` (`mme.cpp` lines 109-116): `U` at the
sentinel, the two root nodes (backward root with zero heuristic fields),
counter reset. -/
def mmeInit (initial_state goal_state : List Int) (gap_x : Nat) : MState :=
  ⟨INT_MAX,
   [⟨initial_state, 0, 0, h_pancake initial_state .F gap_x,
     h_pancake initial_state .B gap_x, .F⟩],
   [⟨goal_state, 0, 0, 0, 0, .B⟩], [], [], 0⟩

/-- `mme` from `mme.cpp`: run the loop from the initial state; the result
pairs the returned cost with the final `nodes_expanded`. -/
def mme (fuel : Nat) (initial_state goal_state : List Int) (eps : Int) (gap_x : Nat) :
    Option (Int × Int) :=
  mmeLoop eps gap_x fuel (mmeInit initial_state goal_state gap_x)

/-- Node of the pancake A* (`a_star.cpp`): state, path cost, heuristic. -/
structure AStarNode where
  s : List Int
  g : Int
  h : Int
deriving DecidableEq, Repr

/-- Popping the `priority_queue`: the first node with minimal `f = g + h`
(the comparator orders by ascending `f`; ties resolve to the earliest
minimal element in the model). -/
def popMin : List AStarNode → Option (AStarNode × List AStarNode)
  | [] => none
  | x :: xs =>
    match popMin xs with
    | none => some (x, [])
    | some (m, rest) =>
        if x.g + x.h ≤ m.g + m.h then some (x, xs) else some (m, x :: rest)

/-- The `while` loop of `a_star` (`a_star.cpp` lines 69-83): every
iteration increments `nodes_expanded`, pops the top node, records
`cost = node.g`, returns `cost` on the goal test, and otherwise pushes all
k-flip children.  When the queue empties the function returns the
`cost` variable (initialized 0, overwritten at each pop) — not the
unsolvable sentinel.  (The source fixes `n` from the initial state once;
flips preserve length, so the per-node computation here coincides.) -/
def aStarLoop (goal_state : List Int) (gap_x : Nat) :
    Nat → List AStarNode → Int → Int → Option (Int × Int)
  | 0, _, _, _ => none
  | Nat.succ fuel, pq, cost, nexp =>
    match popMin pq with
    | none => some (cost, nexp)
    | some (node, rest) =>
        let nexp1 := nexp + 1
        let cost1 := node.g
        if is_solved node.s goal_state then some (cost1, nexp1)
        else
          let n := node.s.length - 1
          let children := (List.range' 1 (n - 1)).map fun k =>
            let c := flip node.s k
            AStarNode.mk c (node.g + 1) (h_pancake c .F gap_x)
          aStarLoop goal_state gap_x fuel (rest ++ children) cost1 nexp1

/-- `a_star` from `a_star.cpp`: seed the queue with the initial state at
`g = 0` and run the loop. -/
def a_star (fuel : Nat) (initial_state goal_state : List Int) (gap_x : Nat) :
    Option (Int × Int) :=
  aStarLoop goal_state gap_x fuel
    [AStarNode.mk initial_state 0 (h_pancake initial_state .F gap_x)] 0 0

/-- The state lists of a node list, for stating set invariants. -/
def statesOf (t : List Node) : List (List Int) :=
  t.map fun x => x.s

/-- Per-direction search-set invariant for reasoning about whole runs over
a finite flip-closed certificate set `S` of states: every node in the open
or closed set has its state in `S`, carries the direction tag, and its
own-direction cost `g` is a non-negative value below the number of
discovered states; moreover states are pairwise distinct across the open
and closed sets together (which subsumes open/closed disjointness). -/
def sideInv (S : List (List Int)) (d : Direction) (g : Node → Int) (op cl : List Node) :
    Prop :=
  (∀ x, x ∈ op ++ cl →
      x.s ∈ S ∧ x.dir = d ∧ 0 ≤ g x ∧ (g x).toNat + 1 ≤ op.length + cl.length) ∧
  (statesOf (op ++ cl)).Nodup

/-- Total own-direction cost of a node list (as a natural number). -/
def gTotal (g : Node → Int) (t : List Node) : Nat :=
  (t.map fun x => (g x).toNat).sum

/-- Termination measure of one search direction: twice the total recorded
cost, plus a large weight for every state of the certificate set not yet
discovered, plus the open-set size.  Every `mme` loop iteration strictly
decreases the sum of the two sides' measures. -/
def muSide (R : Nat) (g : Node → Int) (op cl : List Node) : Nat :=
  2 * gTotal g (op ++ cl) + (2 * R + 4) * (R - (op.length + cl.length)) + op.length

/-- The full `mme` run invariant over a pair of certificate sets: both
sides satisfy their `sideInv` and the bound still sits at the sentinel. -/
def mmeCertInv (S_F S_B : List (List Int)) (st : MState) : Prop :=
  sideInv S_F .F (fun x => x.g_F) st.open_F st.closed_F ∧
  sideInv S_B .B (fun x => x.g_B) st.open_B st.closed_B ∧
  st.U = INT_MAX

/-- The full `mme` termination measure. -/
def muMme (S_F S_B : List (List Int)) (st : MState) : Nat :=
  muSide S_F.length (fun x => x.g_F) st.open_F st.closed_F +
  muSide S_B.length (fun x => x.g_B) st.open_B st.closed_B

/-- The spec's open/closed disjointness invariant for `mme`'s state: no
state is simultaneously in a direction's open and closed set. -/
@[reducible]
def openClosedDisjointM (st : MState) : Prop :=
  (∀ x : Node, setCount st.open_F x = true → setCount st.closed_F x = false) ∧
  (∀ x : Node, setCount st.open_B x = true → setCount st.closed_B x = false)

/-- The same invariant for `gbfhs`'s level state. -/
@[reducible]
def openClosedDisjointG (st : GState) : Prop :=
  (∀ x : Node, setCount st.open_F x = true → setCount st.closed_F x = false) ∧
  (∀ x : Node, setCount st.open_B x = true → setCount st.closed_B x = false)

/-- The full `gbfhs` run invariant over a pair of certificate sets: the two
sides satisfy their `sideInv`, every recorded heuristic value is bounded by
`H`, the expandable subsets live inside their open sets, the bound still
sits at the sentinel and the early-return flag is down. -/
def gCertInv (S_F S_B : List (List Int)) (H : Int) (st : GState) : Prop :=
  sideInv S_F .F (fun x => x.g_F) st.open_F st.closed_F ∧
  sideInv S_B .B (fun x => x.g_B) st.open_B st.closed_B ∧
  (∀ x ∈ st.open_F ++ st.closed_F, x.h_F ≤ H) ∧
  (∀ x ∈ st.open_B ++ st.closed_B, x.h_B ≤ H) ∧
  (∀ x ∈ st.expandable_F, x ∈ st.open_F) ∧
  (∀ x ∈ st.expandable_B, x ∈ st.open_B) ∧
  st.best = INT_MAX ∧ st.stopped = false

/-- `gbfhs` termination measure: certificate states not yet closed.  Every
expansion closes a new state (the code never reopens, see C2), so the
measure strictly decreases with every expansion of a run. -/
def muG (S_F S_B : List (List Int)) (st : GState) : Nat :=
  (S_F.length - st.closed_F.length) + (S_B.length - st.closed_B.length)

theorem nodeEqual_eq_decide (a b : Node) : nodeEqual a b = decide (a.s = b.s) := by
  by_cases h : a.s = b.s <;> simp [nodeEqual, h]

theorem setCount_cons (a : Node) (t : List Node) (y : Node) :
    setCount (a :: t) y = (nodeEqual a y || setCount t y) := by
  simp [setCount]

theorem setCount_state_congr (t : List Node) {x y : Node} (h : x.s = y.s) :
    setCount t x = setCount t y := by
  simp only [setCount]
  induction t with
  | nil => rfl
  | cons a t ih => simp [nodeEqual_eq_decide, h, ih]

theorem setCount_erase (t : List Node) (x y : Node) :
    setCount (setErase t x) y = (!nodeEqual y x && setCount t y) := by
  induction t with
  | nil => simp [setErase, setCount]
  | cons a t ih =>
      simp only [setErase, List.filter_cons] at *
      by_cases hax : a.s = x.s
      · have h1 : (!nodeEqual a x) = false := by simp [nodeEqual_eq_decide, hax]
        rw [h1, if_neg (by simp)]
        by_cases hay : a.s = y.s
        · have hyx : y.s = x.s := hay.symm.trans hax
          rw [ih]
          simp [setCount_cons, nodeEqual_eq_decide, hyx]
        · rw [ih]
          simp [setCount_cons, nodeEqual_eq_decide, hay]
      · have h1 : (!nodeEqual a x) = true := by simp [nodeEqual_eq_decide, hax]
        rw [h1, if_pos rfl]
        rw [setCount_cons, setCount_cons, ih]
        by_cases hay : a.s = y.s
        · have hyx : ¬ y.s = x.s := fun h => hax (hay.trans h)
          simp [nodeEqual_eq_decide, hay, hyx]
        · simp [nodeEqual_eq_decide, hay]

theorem setCount_insert (t : List Node) (x y : Node) :
    setCount (setInsert t x) y = (setCount t y || nodeEqual x y) := by
  simp only [setInsert]
  by_cases hmem : setCount t x = true
  · rw [if_pos hmem]
    by_cases hxy : x.s = y.s
    · have hy : setCount t y = true := (setCount_state_congr t hxy) ▸ hmem
      simp [hy]
    · simp [nodeEqual_eq_decide, hxy]
  · rw [if_neg hmem]
    simp [setCount, List.any_append]

theorem is_solved_refl (s : List Int) : is_solved s s = true := by
  have h : ∀ t : List Int, (List.zip t t).all (fun p => p.1 == p.2) = true := by
    intro t
    induction t with
    | nil => rfl
    | cons a t ih => simpa using ih
  simp [is_solved, h]

/-- Claim C1: the three entry points are claimed to agree on every solvable
instance; on the (trivially solvable) instance `initial = goal =
[1, 2, 3, 4, 5]` with `eps = 1` and GAP-0, `gbfhs` and `a_star` return cost
0 but `mme` — which lacks the initial goal check — returns 2, so the
claimed equality fails on the code. -/
theorem C1_cost_disagreement_on_trivial_instance :
    gbfhs 10 [] [1, 2, 3, 4, 5] [1, 2, 3, 4, 5] 1 = some 0 ∧
    a_star 3 [1, 2, 3, 4, 5] [1, 2, 3, 4, 5] 0 = some (0, 1) ∧
    mme 10 [1, 2, 3, 4, 5] [1, 2, 3, 4, 5] 1 0 = some (2, 2) ∧
    (2 : Int) ≠ 0 := by decide

/-- Claim C2 (gbfhs side): processing a rediscovered successor is claimed
to lower the recorded cost when the candidate is cheaper.  In the backward
direction, expanding the node `[2, 1, 3]` with `g_B = 1` produces the
successor `[1, 2, 3]` with candidate cost `g_B = 2`, while `open_B` holds
that state at recorded cost `g_B = 5`; the source's skip test compares the
`g_F` fields (both roots of the test are 0 resp. 1), so the successor is
skipped and the recorded cost stays 5.  The forward direction skips
likewise because the compared `g_F` field of the successor was just set to
the candidate itself.  `mme`'s backward relaxation, by contrast, lowers the
same stale recorded cost to the candidate 2 as the claim states. -/
theorem C2_gbfhs_keeps_stale_cost_on_cheaper_rediscovery :
    ((expandOneG 100 50 50 ⟨[2, 1, 3], 0, 1, 0, 0, .B⟩
        ⟨INT_MAX, [], [⟨[2, 1, 3], 0, 1, 0, 0, .B⟩, ⟨[1, 2, 3], 0, 5, 0, 0, .B⟩],
         [], [], [], [⟨[2, 1, 3], 0, 1, 0, 0, .B⟩], false⟩).open_B =
      [⟨[1, 2, 3], 0, 5, 0, 0, .B⟩] ∧ (1 : Int) + 1 < 5) ∧
    ((expandOneG 100 50 50 ⟨[2, 1, 3], 1, 0, 0, 0, .F⟩
        ⟨INT_MAX, [⟨[2, 1, 3], 1, 0, 0, 0, .F⟩, ⟨[1, 2, 3], 5, 0, 0, 0, .F⟩], [],
         [], [], [⟨[2, 1, 3], 1, 0, 0, 0, .F⟩], [], false⟩).open_F =
      [⟨[1, 2, 3], 5, 0, 0, 0, .F⟩] ∧ (1 : Int) + 1 < 5) ∧
    (processMSuccB ⟨[2, 1, 3], 0, 1, 0, 0, .B⟩
        ⟨INT_MAX, [], [⟨[1, 2, 3], 0, 5, 0, 0, .B⟩], [], [⟨[2, 1, 3], 0, 1, 0, 0, .B⟩], 1⟩
        ⟨[1, 2, 3], 0, 2, 0, 0, .B⟩).open_B = [⟨[1, 2, 3], 0, 2, 0, 0, .B⟩] := by decide

/-- Claim C5 (counterexample): `split` overwrites both limits from `gLSum`
alone, so for the call `split(2, 100, 0)` the updated forward limit is
`1 < 100`, violating the claimed unconditional postcondition
`updated gLim_F >= original gLim_F`. -/
theorem C5_split_not_monotone_counterexample :
    (split 2 100 0).1 < 100 := by decide

/-- Claim C5 (amended): for calls whose incoming limits satisfy
`0 <= gLim_B <= gLim_F <= gLim_B + 1` with `gLSum = gLim_F + gLim_B + 1`
(the shape produced along `gbfhs`'s successive iterations, where `gLSum`
grows by one each round), all three postconditions hold, and the residual
excess of 1 goes to the currently smaller limit, tie-breaking in favour of
the forward limit; the sum postcondition holds for every call
unconditionally. -/
theorem C5_split_postconditions_amended (gLim_F gLim_B : Int)
    (h0 : 0 ≤ gLim_B) (h1 : gLim_B ≤ gLim_F) (h2 : gLim_F ≤ gLim_B + 1) :
    (∀ gLSum a b : Int, (split gLSum a b).1 + (split gLSum a b).2 = gLSum) ∧
    gLim_F ≤ (split (gLim_F + gLim_B + 1) gLim_F gLim_B).1 ∧
    gLim_B ≤ (split (gLim_F + gLim_B + 1) gLim_F gLim_B).2 ∧
    (gLim_F + gLim_B + 1) - gLim_F - gLim_B = 1 ∧
    (gLim_F ≤ gLim_B →
      (split (gLim_F + gLim_B + 1) gLim_F gLim_B).1 = gLim_F + 1 ∧
      (split (gLim_F + gLim_B + 1) gLim_F gLim_B).2 = gLim_B) ∧
    (gLim_B < gLim_F →
      (split (gLim_F + gLim_B + 1) gLim_F gLim_B).1 = gLim_F ∧
      (split (gLim_F + gLim_B + 1) gLim_F gLim_B).2 = gLim_B + 1) := by
  have hsum : ∀ gLSum a b : Int, (split gLSum a b).1 + (split gLSum a b).2 = gLSum := by
    intro gLSum a b
    simp [split]
  have hnn : (0 : Int) ≤ gLim_F + gLim_B + 1 := by omega
  have htd : Int.tdiv (gLim_F + gLim_B + 1) 2 = (gLim_F + gLim_B + 1) / 2 :=
    Int.tdiv_eq_ediv hnn (by omega)
  refine ⟨hsum, ?_, ?_, by omega, ?_, ?_⟩ <;> simp only [split, htd] <;> omega

/-- Witness for C5's amended theorem at `gLim_F = gLim_B = 1`. -/
theorem C5_split_postconditions_amended_witness :
    (0 : Int) ≤ 1 ∧ (1 : Int) ≤ 1 ∧ (1 : Int) ≤ 1 + 1 ∧
    (split 3 1 1).1 = 2 ∧ (split 3 1 1).2 = 1 :=
  ⟨by decide, by decide, by decide, by
      have h := C5_split_postconditions_amended 1 1 (by decide) (by decide) (by decide)
      exact (h.2.2.2.2.1 (by decide)).1.trans (by decide),
    by
      have h := C5_split_postconditions_amended 1 1 (by decide) (by decide) (by decide)
      exact (h.2.2.2.2.1 (by decide)).2⟩

/-- Claim C6: the goal check is reflexive and `gbfhs` returns 0 on a
state-to-itself instance, but `mme` — which never goal-checks its inputs —
returns 2 on `[1, 2, 3, 4, 5]` to itself (two expansions; the cheapest
collision closes a flip-and-flip-back loop), not the claimed 0. -/
theorem C6_goal_check_and_self_cost :
    (∀ s : List Int, is_solved s s = true) ∧
    (∀ (fuel : Nat) (picks : List Nat) (s : List Int) (eps : Int),
        gbfhs fuel picks s s eps = some 0) ∧
    mme 10 [1, 2, 3, 4, 5] [1, 2, 3, 4, 5] 1 0 = some (2, 2) ∧
    (2 : Int) ≠ 0 := by
  refine ⟨is_solved_refl, ?_, by decide, by decide⟩
  intro fuel picks s eps
  simp [gbfhs, is_solved_refl]

/-- Claim C9: on queue exhaustion the pancake `a_star` returns the stale
`cost` variable (the `g` of the last popped node), not the unsolvable
sentinel: on the unsolvable instance `[1, 2]` to `[2, 1]` (no flip exists
for a 1-pancake stack) it returns 0 after one pop. -/
theorem C9_a_star_returns_stale_cost_on_exhaustion :
    a_star 5 [1, 2] [2, 1] 0 = some (0, 1) ∧ (0 : Int) ≠ INT_MAX := by decide

theorem processMSuccF_U_mono (node : Node) (st : MState) (s_node : Node) :
    (processMSuccF node st s_node).U ≤ st.U := by
  unfold processMSuccF
  by_cases hskip : ((setCount st.open_F s_node || setCount st.closed_F s_node) &&
      decide (node.g_F + 1 ≥ old_g_F st s_node)) = true
  · simp [hskip]
  · rcases hfind : setFind st.open_B { s_node with g_F := node.g_F + 1 } with _ | m
    · simp [hskip, hfind]
    · simp [hskip, hfind, min_le_left]

theorem processMSuccF_U_changes_only_on_collision (node : Node) (st : MState)
    (s_node : Node) (hne : (processMSuccF node st s_node).U ≠ st.U) :
    setFind st.open_B { s_node with g_F := node.g_F + 1 } ≠ none := by
  intro hfind
  apply hne
  unfold processMSuccF
  by_cases hskip : ((setCount st.open_F s_node || setCount st.closed_F s_node) &&
      decide (node.g_F + 1 ≥ old_g_F st s_node)) = true
  · simp [hskip]
  · simp [hskip, hfind]

theorem processMSuccF_U_collision (node : Node) (st : MState) (s_node : Node) (m : Node)
    (hskip : ¬((setCount st.open_F s_node || setCount st.closed_F s_node) = true ∧
        node.g_F + 1 ≥ old_g_F st s_node))
    (hfind : setFind st.open_B { s_node with g_F := node.g_F + 1 } = some m) :
    (processMSuccF node st s_node).U = min st.U ((node.g_F + 1) + m.g_B) := by
  have hb : ((setCount st.open_F s_node || setCount st.closed_F s_node) &&
      decide (node.g_F + 1 ≥ old_g_F st s_node)) = false := by
    by_contra hc
    rw [Bool.not_eq_false, Bool.and_eq_true] at hc
    exact hskip ⟨hc.1, of_decide_eq_true hc.2⟩
  unfold processMSuccF
  simp [hb, hfind]

theorem processMSuccB_U_mono (node : Node) (st : MState) (s_node : Node) :
    (processMSuccB node st s_node).U ≤ st.U := by
  unfold processMSuccB
  by_cases hskip : ((setCount st.open_B s_node || setCount st.closed_B s_node) &&
      decide (node.g_B + 1 ≥ old_g_B st s_node)) = true
  · simp [hskip]
  · rcases hfind : setFind st.open_F { s_node with g_B := node.g_B + 1 } with _ | m
    · simp [hskip, hfind]
    · simp [hskip, hfind, min_le_left]

theorem processMSuccB_U_changes_only_on_collision (node : Node) (st : MState)
    (s_node : Node) (hne : (processMSuccB node st s_node).U ≠ st.U) :
    setFind st.open_F { s_node with g_B := node.g_B + 1 } ≠ none := by
  intro hfind
  apply hne
  unfold processMSuccB
  by_cases hskip : ((setCount st.open_B s_node || setCount st.closed_B s_node) &&
      decide (node.g_B + 1 ≥ old_g_B st s_node)) = true
  · simp [hskip]
  · simp [hskip, hfind]

theorem processMSuccB_U_collision (node : Node) (st : MState) (s_node : Node) (m : Node)
    (hskip : ¬((setCount st.open_B s_node || setCount st.closed_B s_node) = true ∧
        node.g_B + 1 ≥ old_g_B st s_node))
    (hfind : setFind st.open_F { s_node with g_B := node.g_B + 1 } = some m) :
    (processMSuccB node st s_node).U = min st.U ((node.g_B + 1) + m.g_F) := by
  have hb : ((setCount st.open_B s_node || setCount st.closed_B s_node) &&
      decide (node.g_B + 1 ≥ old_g_B st s_node)) = false := by
    by_contra hc
    rw [Bool.not_eq_false, Bool.and_eq_true] at hc
    exact hskip ⟨hc.1, of_decide_eq_true hc.2⟩
  unfold processMSuccB
  simp [hb, hfind]

theorem processSuccF_best_mono (fLim gLim_F : Int) (node : Node) (st : GState)
    (s_node : Node) : (processSuccF fLim gLim_F node st s_node).best ≤ st.best := by
  unfold processSuccF
  by_cases hstop : st.stopped = true
  · simp [hstop]
  · by_cases hskip : ((setCount st.open_F s_node || setCount st.closed_F s_node) &&
        decide (node.g_F + 1 ≥ s_node.g_F)) = true
    · simp [hstop, hskip]
    · rcases hfind : setFind st.open_B { s_node with g_F := node.g_F + 1 } with _ | m
      · simp [hstop, hskip, hfind]
      · simp [hstop, hskip, hfind, min_le_left]

theorem processSuccF_best_changes_only_on_collision (fLim gLim_F : Int) (node : Node)
    (st : GState) (s_node : Node)
    (hne : (processSuccF fLim gLim_F node st s_node).best ≠ st.best) :
    setFind st.open_B { s_node with g_F := node.g_F + 1 } ≠ none := by
  intro hfind
  apply hne
  unfold processSuccF
  by_cases hstop : st.stopped = true
  · simp [hstop]
  · by_cases hskip : ((setCount st.open_F s_node || setCount st.closed_F s_node) &&
        decide (node.g_F + 1 ≥ s_node.g_F)) = true
    · simp [hstop, hskip]
    · simp [hstop, hskip, hfind]

theorem processSuccF_best_collision (fLim gLim_F : Int) (node : Node) (st : GState)
    (s_node : Node) (m : Node) (hstop : st.stopped = false)
    (hskip : ¬((setCount st.open_F s_node || setCount st.closed_F s_node) = true ∧
        node.g_F + 1 ≥ s_node.g_F))
    (hfind : setFind st.open_B { s_node with g_F := node.g_F + 1 } = some m)
    (hopp : s_node.g_B ≤ m.g_B) :
    (processSuccF fLim gLim_F node st s_node).best = min st.best ((node.g_F + 1) + m.g_B) := by
  have hb : ((setCount st.open_F s_node || setCount st.closed_F s_node) &&
      decide (node.g_F + 1 ≥ s_node.g_F)) = false := by
    by_contra hc
    rw [Bool.not_eq_false, Bool.and_eq_true] at hc
    exact hskip ⟨hc.1, of_decide_eq_true hc.2⟩
  unfold processSuccF
  simp [hstop, hb, hfind, max_eq_right hopp]

theorem processSuccB_best_mono (fLim gLim_B : Int) (node : Node) (st : GState)
    (s_node : Node) : (processSuccB fLim gLim_B node st s_node).best ≤ st.best := by
  unfold processSuccB
  by_cases hstop : st.stopped = true
  · simp [hstop]
  · by_cases hskip : ((setCount st.open_B s_node || setCount st.closed_B s_node) &&
        decide (node.g_F + 1 ≥ s_node.g_F)) = true
    · simp [hstop, hskip]
    · rcases hfind : setFind st.open_F { s_node with g_B := node.g_B + 1 } with _ | m
      · simp [hstop, hskip, hfind]
      · simp [hstop, hskip, hfind, min_le_left]

theorem processSuccB_best_changes_only_on_collision (fLim gLim_B : Int) (node : Node)
    (st : GState) (s_node : Node)
    (hne : (processSuccB fLim gLim_B node st s_node).best ≠ st.best) :
    setFind st.open_F { s_node with g_B := node.g_B + 1 } ≠ none := by
  intro hfind
  apply hne
  unfold processSuccB
  by_cases hstop : st.stopped = true
  · simp [hstop]
  · by_cases hskip : ((setCount st.open_B s_node || setCount st.closed_B s_node) &&
        decide (node.g_F + 1 ≥ s_node.g_F)) = true
    · simp [hstop, hskip]
    · simp [hstop, hskip, hfind]

theorem processSuccB_best_collision (fLim gLim_B : Int) (node : Node) (st : GState)
    (s_node : Node) (m : Node) (hstop : st.stopped = false)
    (hskip : ¬((setCount st.open_B s_node || setCount st.closed_B s_node) = true ∧
        node.g_F + 1 ≥ s_node.g_F))
    (hfind : setFind st.open_F { s_node with g_B := node.g_B + 1 } = some m)
    (hopp : s_node.g_F ≤ m.g_F) :
    (processSuccB fLim gLim_B node st s_node).best = min st.best ((node.g_B + 1) + m.g_F) := by
  have hb : ((setCount st.open_B s_node || setCount st.closed_B s_node) &&
      decide (node.g_F + 1 ≥ s_node.g_F)) = false := by
    by_contra hc
    rw [Bool.not_eq_false, Bool.and_eq_true] at hc
    exact hskip ⟨hc.1, of_decide_eq_true hc.2⟩
  unfold processSuccB
  simp [hstop, hb, hfind, max_eq_right hopp]

/-- Claim C3: in both controllers and both directions, processing a
successor changes the bound only on a collision (the re-inserted state
present in the opposite open set), the bound never increases, and on a
collision the bound becomes `min(best, g_D(state) + g_opp(state))` with
`g_opp` the opposite direction's currently recorded open cost (for the
GBFHS branches this reading of the `max` with the inherited field needs
the inherited opposite cost to be at most the stored one, which holds in
every run since nodes inherit the root's 0). -/
theorem C3_collision_is_sole_bound_update :
    ((∀ (node : Node) (st : MState) (s_node : Node),
        (processMSuccF node st s_node).U ≤ st.U) ∧
     (∀ (node : Node) (st : MState) (s_node : Node),
        (processMSuccF node st s_node).U ≠ st.U →
          setFind st.open_B { s_node with g_F := node.g_F + 1 } ≠ none) ∧
     (∀ (node : Node) (st : MState) (s_node : Node) (m : Node),
        ¬((setCount st.open_F s_node || setCount st.closed_F s_node) = true ∧
            node.g_F + 1 ≥ old_g_F st s_node) →
        setFind st.open_B { s_node with g_F := node.g_F + 1 } = some m →
          (processMSuccF node st s_node).U = min st.U ((node.g_F + 1) + m.g_B))) ∧
    ((∀ (node : Node) (st : MState) (s_node : Node),
        (processMSuccB node st s_node).U ≤ st.U) ∧
     (∀ (node : Node) (st : MState) (s_node : Node),
        (processMSuccB node st s_node).U ≠ st.U →
          setFind st.open_F { s_node with g_B := node.g_B + 1 } ≠ none) ∧
     (∀ (node : Node) (st : MState) (s_node : Node) (m : Node),
        ¬((setCount st.open_B s_node || setCount st.closed_B s_node) = true ∧
            node.g_B + 1 ≥ old_g_B st s_node) →
        setFind st.open_F { s_node with g_B := node.g_B + 1 } = some m →
          (processMSuccB node st s_node).U = min st.U ((node.g_B + 1) + m.g_F))) ∧
    ((∀ (fLim gLim_F : Int) (node : Node) (st : GState) (s_node : Node),
        (processSuccF fLim gLim_F node st s_node).best ≤ st.best) ∧
     (∀ (fLim gLim_F : Int) (node : Node) (st : GState) (s_node : Node),
        (processSuccF fLim gLim_F node st s_node).best ≠ st.best →
          setFind st.open_B { s_node with g_F := node.g_F + 1 } ≠ none) ∧
     (∀ (fLim gLim_F : Int) (node : Node) (st : GState) (s_node : Node) (m : Node),
        st.stopped = false →
        ¬((setCount st.open_F s_node || setCount st.closed_F s_node) = true ∧
            node.g_F + 1 ≥ s_node.g_F) →
        setFind st.open_B { s_node with g_F := node.g_F + 1 } = some m →
        s_node.g_B ≤ m.g_B →
          (processSuccF fLim gLim_F node st s_node).best =
            min st.best ((node.g_F + 1) + m.g_B))) ∧
    ((∀ (fLim gLim_B : Int) (node : Node) (st : GState) (s_node : Node),
        (processSuccB fLim gLim_B node st s_node).best ≤ st.best) ∧
     (∀ (fLim gLim_B : Int) (node : Node) (st : GState) (s_node : Node),
        (processSuccB fLim gLim_B node st s_node).best ≠ st.best →
          setFind st.open_F { s_node with g_B := node.g_B + 1 } ≠ none) ∧
     (∀ (fLim gLim_B : Int) (node : Node) (st : GState) (s_node : Node) (m : Node),
        st.stopped = false →
        ¬((setCount st.open_B s_node || setCount st.closed_B s_node) = true ∧
            node.g_F + 1 ≥ s_node.g_F) →
        setFind st.open_F { s_node with g_B := node.g_B + 1 } = some m →
        s_node.g_F ≤ m.g_F →
          (processSuccB fLim gLim_B node st s_node).best =
            min st.best ((node.g_B + 1) + m.g_F))) :=
  ⟨⟨processMSuccF_U_mono, processMSuccF_U_changes_only_on_collision,
    fun node st s_node m h1 h2 => processMSuccF_U_collision node st s_node m h1 h2⟩,
   ⟨processMSuccB_U_mono, processMSuccB_U_changes_only_on_collision,
    fun node st s_node m h1 h2 => processMSuccB_U_collision node st s_node m h1 h2⟩,
   ⟨processSuccF_best_mono, processSuccF_best_changes_only_on_collision,
    fun fLim gLim_F node st s_node m h0 h1 h2 h3 =>
      processSuccF_best_collision fLim gLim_F node st s_node m h0 h1 h2 h3⟩,
   ⟨processSuccB_best_mono, processSuccB_best_changes_only_on_collision,
    fun fLim gLim_B node st s_node m h0 h1 h2 h3 =>
      processSuccB_best_collision fLim gLim_B node st s_node m h0 h1 h2 h3⟩⟩

/-- Witness for C3 at concrete collision scenarios in all four branches:
expanding `[2, 1, 3]` at cost 0 produces `[1, 2, 3]` at cost 1, which
collides with the opposite open set holding `[1, 2, 3]` at cost 3, lowering
the bound from the sentinel to 4; the change-only conjuncts are witnessed
at the same inputs. -/
theorem C3_collision_is_sole_bound_update_witness :
    ((processMSuccF ⟨[2, 1, 3], 0, 0, 0, 0, .F⟩
        ⟨INT_MAX, [], [⟨[1, 2, 3], 0, 3, 0, 0, .B⟩], [], [], 0⟩
        ⟨[1, 2, 3], 1, 0, 0, 0, .F⟩).U = min INT_MAX ((0 + 1) + 3)) ∧
    (setFind (⟨INT_MAX, [], [⟨[1, 2, 3], 0, 3, 0, 0, .B⟩], [], [], 0⟩ : MState).open_B
        { (⟨[1, 2, 3], 1, 0, 0, 0, .F⟩ : Node) with g_F := (0 : Int) + 1 } ≠ none) ∧
    ((processMSuccB ⟨[2, 1, 3], 0, 0, 0, 0, .B⟩
        ⟨INT_MAX, [⟨[1, 2, 3], 3, 0, 0, 0, .F⟩], [], [], [], 0⟩
        ⟨[1, 2, 3], 0, 1, 0, 0, .B⟩).U = min INT_MAX ((0 + 1) + 3)) ∧
    (setFind (⟨INT_MAX, [⟨[1, 2, 3], 3, 0, 0, 0, .F⟩], [], [], [], 0⟩ : MState).open_F
        { (⟨[1, 2, 3], 0, 1, 0, 0, .B⟩ : Node) with g_B := (0 : Int) + 1 } ≠ none) ∧
    ((processSuccF 100 50 ⟨[2, 1, 3], 0, 0, 0, 0, .F⟩
        ⟨INT_MAX, [], [⟨[1, 2, 3], 0, 3, 0, 0, .B⟩], [], [], [], [], false⟩
        ⟨[1, 2, 3], 1, 0, 0, 0, .F⟩).best = min INT_MAX ((0 + 1) + 3)) ∧
    (setFind (⟨INT_MAX, [], [⟨[1, 2, 3], 0, 3, 0, 0, .B⟩], [], [], [], [], false⟩ :
        GState).open_B
        { (⟨[1, 2, 3], 1, 0, 0, 0, .F⟩ : Node) with g_F := (0 : Int) + 1 } ≠ none) ∧
    ((processSuccB 100 50 ⟨[2, 1, 3], 0, 0, 0, 0, .B⟩
        ⟨INT_MAX, [⟨[1, 2, 3], 3, 0, 0, 0, .F⟩], [], [], [], [], [], false⟩
        ⟨[1, 2, 3], 0, 1, 0, 0, .B⟩).best = min INT_MAX ((0 + 1) + 3)) ∧
    (setFind (⟨INT_MAX, [⟨[1, 2, 3], 3, 0, 0, 0, .F⟩], [], [], [], [], [], false⟩ :
        GState).open_F
        { (⟨[1, 2, 3], 0, 1, 0, 0, .B⟩ : Node) with g_B := (0 : Int) + 1 } ≠ none) :=
  ⟨C3_collision_is_sole_bound_update.1.2.2 ⟨[2, 1, 3], 0, 0, 0, 0, .F⟩
     ⟨INT_MAX, [], [⟨[1, 2, 3], 0, 3, 0, 0, .B⟩], [], [], 0⟩
     ⟨[1, 2, 3], 1, 0, 0, 0, .F⟩ ⟨[1, 2, 3], 0, 3, 0, 0, .B⟩ (by decide) (by decide),
   C3_collision_is_sole_bound_update.1.2.1 ⟨[2, 1, 3], 0, 0, 0, 0, .F⟩
     ⟨INT_MAX, [], [⟨[1, 2, 3], 0, 3, 0, 0, .B⟩], [], [], 0⟩
     ⟨[1, 2, 3], 1, 0, 0, 0, .F⟩ (by decide),
   C3_collision_is_sole_bound_update.2.1.2.2 ⟨[2, 1, 3], 0, 0, 0, 0, .B⟩
     ⟨INT_MAX, [⟨[1, 2, 3], 3, 0, 0, 0, .F⟩], [], [], [], 0⟩
     ⟨[1, 2, 3], 0, 1, 0, 0, .B⟩ ⟨[1, 2, 3], 3, 0, 0, 0, .F⟩ (by decide) (by decide),
   C3_collision_is_sole_bound_update.2.1.2.1 ⟨[2, 1, 3], 0, 0, 0, 0, .B⟩
     ⟨INT_MAX, [⟨[1, 2, 3], 3, 0, 0, 0, .F⟩], [], [], [], 0⟩
     ⟨[1, 2, 3], 0, 1, 0, 0, .B⟩ (by decide),
   C3_collision_is_sole_bound_update.2.2.1.2.2 100 50 ⟨[2, 1, 3], 0, 0, 0, 0, .F⟩
     ⟨INT_MAX, [], [⟨[1, 2, 3], 0, 3, 0, 0, .B⟩], [], [], [], [], false⟩
     ⟨[1, 2, 3], 1, 0, 0, 0, .F⟩ ⟨[1, 2, 3], 0, 3, 0, 0, .B⟩ (by decide) (by decide)
     (by decide) (by decide),
   C3_collision_is_sole_bound_update.2.2.1.2.1 100 50 ⟨[2, 1, 3], 0, 0, 0, 0, .F⟩
     ⟨INT_MAX, [], [⟨[1, 2, 3], 0, 3, 0, 0, .B⟩], [], [], [], [], false⟩
     ⟨[1, 2, 3], 1, 0, 0, 0, .F⟩ (by decide),
   C3_collision_is_sole_bound_update.2.2.2.2.2 100 50 ⟨[2, 1, 3], 0, 0, 0, 0, .B⟩
     ⟨INT_MAX, [⟨[1, 2, 3], 3, 0, 0, 0, .F⟩], [], [], [], [], [], false⟩
     ⟨[1, 2, 3], 0, 1, 0, 0, .B⟩ ⟨[1, 2, 3], 3, 0, 0, 0, .F⟩ (by decide) (by decide)
     (by decide) (by decide),
   C3_collision_is_sole_bound_update.2.2.2.2.1 100 50 ⟨[2, 1, 3], 0, 0, 0, 0, .B⟩
     ⟨INT_MAX, [⟨[1, 2, 3], 3, 0, 0, 0, .F⟩], [], [], [], [], [], false⟩
     ⟨[1, 2, 3], 0, 1, 0, 0, .B⟩ (by decide)⟩

/-- Claim C4: in any iteration of `mme`'s loop with both open sets
non-empty, the stopping inequality — over `C = min(prmin_F, prmin_B)` and
the freshly scanned `fmin`/`gmin` minima — is evaluated before the next
expansion, and as soon as it holds the step returns `U` and the whole loop
(any remaining fuel) returns `U` with the expansion counter untouched, so
no node is ever expanded while the inequality holds. -/
theorem C4_mme_stop_checked_before_every_expansion
    (eps : Int) (gap_x : Nat) (fuel : Nat) (st : MState)
    (hF : st.open_F.isEmpty = false) (hB : st.open_B.isEmpty = false)
    (hstop : st.U ≤
      max (max (min (scan st.open_F eps .F).prmin (scan st.open_B eps .B).prmin)
               (scan st.open_F eps .F).fmin)
          (max (scan st.open_B eps .B).fmin
               ((scan st.open_F eps .F).gmin + (scan st.open_B eps .B).gmin + eps))) :
    mmeStep eps gap_x st = Sum.inl (st.U, st.nodes_expanded) ∧
    mmeLoop eps gap_x (fuel + 1) st = some (st.U, st.nodes_expanded) := by
  have hstep : mmeStep eps gap_x st = Sum.inl (st.U, st.nodes_expanded) := by
    unfold mmeStep
    simp [hF, hB, hstop]
  refine ⟨hstep, ?_⟩
  show (match mmeStep eps gap_x st with
        | Sum.inl r => some r
        | Sum.inr st' => mmeLoop eps gap_x fuel st') = some (st.U, st.nodes_expanded)
  rw [hstep]

/-- Witness for C4 at a state whose bound `U = 0` already satisfies the
stopping inequality (all scanned minima are at least 0): the loop returns
`(0, 5)` without touching the expansion counter. -/
theorem C4_mme_stop_checked_before_every_expansion_witness :
    ((⟨0, [⟨[1, 2], 0, 0, 0, 0, .F⟩], [⟨[1, 2], 0, 0, 0, 0, .B⟩], [], [],
        5⟩ : MState).open_F.isEmpty = false) ∧
    mmeLoop 1 0 3 ⟨0, [⟨[1, 2], 0, 0, 0, 0, .F⟩], [⟨[1, 2], 0, 0, 0, 0, .B⟩], [], [], 5⟩ =
      some (0, 5) :=
  ⟨by decide,
   (C4_mme_stop_checked_before_every_expansion 1 0 2
      ⟨0, [⟨[1, 2], 0, 0, 0, 0, .F⟩], [⟨[1, 2], 0, 0, 0, 0, .B⟩], [], [], 5⟩
      (by decide) (by decide) (by decide)).2⟩

theorem nodeEqual_symm_false {a b : Node} (h : nodeEqual a b = false) :
    nodeEqual b a = false := by
  simp only [nodeEqual_eq_decide] at h ⊢
  simp only [decide_eq_false_iff_not] at h ⊢
  exact fun hc => h hc.symm

/-- Expanding a node — erasing it from open and inserting it into closed —
preserves open/closed disjointness of the pair. -/
theorem disjoint_after_expand {op cl : List Node} {node : Node}
    (h : ∀ x, setCount op x = true → setCount cl x = false) :
    ∀ x, setCount (setErase op node) x = true → setCount (setInsert cl node) x = false := by
  intro x hx
  rw [setCount_erase, Bool.and_eq_true] at hx
  rw [setCount_insert]
  have h1 := h x hx.2
  have h2 : nodeEqual node x = false :=
    nodeEqual_symm_false (by simpa using hx.1)
  simp [h1, h2]

/-- Relaxing a successor — conditionally erasing its state from open and
closed and re-inserting its updated node into open — preserves open/closed
disjointness, provided the state is known to be absent from closed when the
erase is skipped. -/
theorem disjoint_after_relax {op cl : List Node} {s_node s1 : Node}
    (hs : s1.s = s_node.s) (mem : Bool)
    (hmem : mem = false → setCount cl s_node = false)
    (h : ∀ x, setCount op x = true → setCount cl x = false) :
    ∀ x, setCount (setInsert (if mem then setErase op s_node else op) s1) x = true →
      setCount (if mem then setErase cl s_node else cl) x = false := by
  intro x hx
  rw [setCount_insert] at hx
  by_cases hm : mem = true
  case pos =>
      rw [hm] at hx ⊢
      replace hx : (setCount (setErase op s_node) x || nodeEqual s1 x) = true := hx
      show setCount (setErase cl s_node) x = false
      rw [setCount_erase]
      rcases Bool.or_eq_true_iff.mp hx with hold | hnew
      · rw [setCount_erase, Bool.and_eq_true] at hold
        simp [hold.1, h x hold.2]
      · have hxs : x.s = s_node.s := by
          simp only [nodeEqual_eq_decide, decide_eq_true_eq] at hnew
          exact hnew.symm.trans hs
        have : nodeEqual x s_node = true := by
          simp [nodeEqual_eq_decide, hxs]
        simp [this]
  case neg =>
      have hm' : mem = false := by simpa using hm
      rw [hm'] at hx ⊢
      replace hx : (setCount op x || nodeEqual s1 x) = true := hx
      show setCount cl x = false
      rcases Bool.or_eq_true_iff.mp hx with hold | hnew
      · exact h x hold
      · have hxs : x.s = s_node.s := by
          simp only [nodeEqual_eq_decide, decide_eq_true_eq] at hnew
          exact hnew.symm.trans hs
        rw [setCount_state_congr cl hxs]
        exact hmem hm'

/-- Folding a state through a list with a step that preserves a property
preserves the property. -/
theorem foldl_preserves {α β : Type} (P : β → Prop) (f : β → α → β) (l : List α) (b : β)
    (hb : P b) (hf : ∀ st a, P st → P (f st a)) : P (l.foldl f b) := by
  induction l generalizing b with
  | nil => exact hb
  | cons a l ih => exact ih (f b a) (hf b a hb)

theorem processMSuccF_disjoint (node : Node) (st : MState) (s_node : Node)
    (h : openClosedDisjointM st) : openClosedDisjointM (processMSuccF node st s_node) := by
  obtain ⟨hF, hB⟩ := h
  unfold processMSuccF
  dsimp only
  split
  · exact ⟨hF, hB⟩
  · split
    · exact ⟨@disjoint_after_relax st.open_F st.closed_F s_node
          { s_node with g_F := node.g_F + 1 } rfl
          (setCount st.open_F s_node || setCount st.closed_F s_node)
          (fun hm => (Bool.or_eq_false_iff.mp hm).2) hF, hB⟩
    · exact ⟨@disjoint_after_relax st.open_F st.closed_F s_node
          { s_node with g_F := node.g_F + 1 } rfl
          (setCount st.open_F s_node || setCount st.closed_F s_node)
          (fun hm => (Bool.or_eq_false_iff.mp hm).2) hF, hB⟩

theorem processMSuccB_disjoint (node : Node) (st : MState) (s_node : Node)
    (h : openClosedDisjointM st) : openClosedDisjointM (processMSuccB node st s_node) := by
  obtain ⟨hF, hB⟩ := h
  unfold processMSuccB
  dsimp only
  split
  · exact ⟨hF, hB⟩
  · split
    · exact ⟨hF, @disjoint_after_relax st.open_B st.closed_B s_node
          { s_node with g_B := node.g_B + 1 } rfl
          (setCount st.open_B s_node || setCount st.closed_B s_node)
          (fun hm => (Bool.or_eq_false_iff.mp hm).2) hB⟩
    · exact ⟨hF, @disjoint_after_relax st.open_B st.closed_B s_node
          { s_node with g_B := node.g_B + 1 } rfl
          (setCount st.open_B s_node || setCount st.closed_B s_node)
          (fun hm => (Bool.or_eq_false_iff.mp hm).2) hB⟩

theorem mmeExpandF_disjoint (gap_x : Nat) (node : Node) (st : MState)
    (h : openClosedDisjointM st) : openClosedDisjointM (mmeExpandF gap_x node st) := by
  obtain ⟨hF, hB⟩ := h
  unfold mmeExpandF
  exact foldl_preserves openClosedDisjointM _ _ _
    ⟨disjoint_after_expand hF, hB⟩
    (fun st' a h' => processMSuccF_disjoint node st' a h')

theorem mmeExpandB_disjoint (gap_x : Nat) (node : Node) (st : MState)
    (h : openClosedDisjointM st) : openClosedDisjointM (mmeExpandB gap_x node st) := by
  obtain ⟨hF, hB⟩ := h
  unfold mmeExpandB
  exact foldl_preserves openClosedDisjointM _ _ _
    ⟨hF, disjoint_after_expand hB⟩
    (fun st' a h' => processMSuccB_disjoint node st' a h')

theorem mmeStep_inr_disjoint (eps : Int) (gap_x : Nat) (st st' : MState)
    (hstep : mmeStep eps gap_x st = Sum.inr st') (h : openClosedDisjointM st) :
    openClosedDisjointM st' := by
  unfold mmeStep at hstep
  dsimp only at hstep
  split at hstep
  · exact absurd hstep (by simp)
  · split at hstep
    · exact absurd hstep (by simp)
    · split at hstep
      · exact (Sum.inr.injEq .. ▸ hstep : _ = st') ▸ mmeExpandF_disjoint _ _ _ h
      · exact (Sum.inr.injEq .. ▸ hstep : _ = st') ▸ mmeExpandB_disjoint _ _ _ h

theorem mmeIter_disjoint (eps : Int) (gap_x : Nat) (n : Nat) (st : MState)
    (h : openClosedDisjointM st) : openClosedDisjointM (mmeIter eps gap_x n st) := by
  induction n generalizing st with
  | zero => exact h
  | succ n ih =>
      unfold mmeIter
      rcases hstep : mmeStep eps gap_x st with r | st'
      · exact h
      · exact ih _ (mmeStep_inr_disjoint eps gap_x st st' hstep h)

theorem mmeInit_disjoint (initial_state goal_state : List Int) (gap_x : Nat) :
    openClosedDisjointM (mmeInit initial_state goal_state gap_x) := by
  exact ⟨fun x _ => rfl, fun x _ => rfl⟩

theorem processSuccF_disjoint (fLim gLim_F : Int) (node : Node) (st : GState)
    (s_node : Node) (h : openClosedDisjointG st) :
    openClosedDisjointG (processSuccF fLim gLim_F node st s_node) := by
  obtain ⟨hF, hB⟩ := h
  unfold processSuccF
  dsimp only
  split
  · exact ⟨hF, hB⟩
  · split
    · exact ⟨hF, hB⟩
    · split
      · exact ⟨@disjoint_after_relax st.open_F st.closed_F s_node
          { s_node with g_F := node.g_F + 1 } rfl
          (setCount st.open_F s_node || setCount st.closed_F s_node)
          (fun hm => (Bool.or_eq_false_iff.mp hm).2) hF, hB⟩
      · exact ⟨@disjoint_after_relax st.open_F st.closed_F s_node
          { s_node with g_F := node.g_F + 1 } rfl
          (setCount st.open_F s_node || setCount st.closed_F s_node)
          (fun hm => (Bool.or_eq_false_iff.mp hm).2) hF, hB⟩

theorem processSuccB_disjoint (fLim gLim_B : Int) (node : Node) (st : GState)
    (s_node : Node) (h : openClosedDisjointG st) :
    openClosedDisjointG (processSuccB fLim gLim_B node st s_node) := by
  obtain ⟨hF, hB⟩ := h
  unfold processSuccB
  dsimp only
  split
  · exact ⟨hF, hB⟩
  · split
    · exact ⟨hF, hB⟩
    · split
      · exact ⟨hF, @disjoint_after_relax st.open_B st.closed_B s_node
          { s_node with g_B := node.g_B + 1 } rfl
          (setCount st.open_B s_node || setCount st.closed_B s_node)
          (fun hm => (Bool.or_eq_false_iff.mp hm).2) hB⟩
      · exact ⟨hF, @disjoint_after_relax st.open_B st.closed_B s_node
          { s_node with g_B := node.g_B + 1 } rfl
          (setCount st.open_B s_node || setCount st.closed_B s_node)
          (fun hm => (Bool.or_eq_false_iff.mp hm).2) hB⟩

theorem expandOneG_disjoint (fLim gLim_F gLim_B : Int) (node : Node) (st : GState)
    (h : openClosedDisjointG st) :
    openClosedDisjointG (expandOneG fLim gLim_F gLim_B node st) := by
  obtain ⟨hF, hB⟩ := h
  unfold expandOneG
  cases node.dir
  · exact foldl_preserves openClosedDisjointG _ _ _
      ⟨disjoint_after_expand hF, hB⟩
      (fun st' a h' => processSuccF_disjoint fLim gLim_F node st' a h')
  · exact foldl_preserves openClosedDisjointG _ _ _
      ⟨hF, disjoint_after_expand hB⟩
      (fun st' a h' => processSuccB_disjoint fLim gLim_B node st' a h')

theorem levelLoop_disjoint (fLim gLim_F gLim_B : Int) :
    ∀ (picks : List Nat) (st st' : GState) (picks' : List Nat),
      openClosedDisjointG st →
      levelLoop fLim gLim_F gLim_B picks st = some (st', picks') →
      openClosedDisjointG st' := by
  intro picks
  induction picks with
  | nil =>
      intro st st' picks' h hrun
      unfold levelLoop at hrun
      split at hrun
      · cases hrun; exact h
      · split at hrun
        · cases hrun; exact h
        · cases hrun
  | cons i rest ih =>
      intro st st' picks' h hrun
      unfold levelLoop at hrun
      split at hrun
      · cases hrun; exact h
      · split at hrun
        · cases hrun; exact h
        · dsimp only at hrun
          rcases hpick : pickNode st.expandable_F st.expandable_B i with _ | node
          · rw [hpick] at hrun; cases hrun
          · rw [hpick] at hrun
            exact ih _ st' picks'
              (expandOneG_disjoint fLim gLim_F gLim_B node st h) hrun

/-- Claim C8: no state is ever simultaneously in one direction's open and
closed set, in either controller: the invariant holds at both initial
states, is preserved by every expansion of `mme`'s loop (so it holds at
every state any run passes through) and by every `gbfhs` expansion and
level loop, and under it the disjointness assertions of `mme.cpp` hold for
every state. -/
theorem C8_no_state_both_open_and_closed :
    (∀ (initial_state goal_state : List Int) (gap_x : Nat),
        openClosedDisjointM (mmeInit initial_state goal_state gap_x)) ∧
    (∀ (eps : Int) (gap_x : Nat) (n : Nat) (initial_state goal_state : List Int),
        openClosedDisjointM (mmeIter eps gap_x n (mmeInit initial_state goal_state gap_x))) ∧
    (∀ st : MState, openClosedDisjointM st → ∀ x : Node,
        ¬(setCount st.open_F x = true ∧ setCount st.closed_F x = true) ∧
        ¬(setCount st.open_B x = true ∧ setCount st.closed_B x = true)) ∧
    (∀ initial_state goal_state : List Int,
        openClosedDisjointG ⟨INT_MAX,
          [⟨initial_state, 0, 0, h_gbfhs initial_state .F, h_gbfhs initial_state .B, .F⟩],
          [⟨goal_state, 0, 0, 0, 0, .B⟩], [], [], [], [], false⟩) ∧
    (∀ (fLim gLim_F gLim_B : Int) (node : Node) (st : GState),
        openClosedDisjointG st →
        openClosedDisjointG (expandOneG fLim gLim_F gLim_B node st)) ∧
    (∀ (fLim gLim_F gLim_B : Int) (picks : List Nat) (st st' : GState) (picks' : List Nat),
        openClosedDisjointG st →
        levelLoop fLim gLim_F gLim_B picks st = some (st', picks') →
        openClosedDisjointG st') :=
  ⟨mmeInit_disjoint,
   fun eps gap_x n init goal =>
     mmeIter_disjoint eps gap_x n (mmeInit init goal gap_x) (mmeInit_disjoint init goal gap_x),
   fun st h x =>
     ⟨fun hc => Bool.false_ne_true ((h.1 x hc.1).symm.trans hc.2),
      fun hc => Bool.false_ne_true ((h.2 x hc.1).symm.trans hc.2)⟩,
   fun _ _ => ⟨fun x _ => rfl, fun x _ => rfl⟩,
   fun fLim gLim_F gLim_B node st h => expandOneG_disjoint fLim gLim_F gLim_B node st h,
   fun fLim gLim_F gLim_B picks st st' picks' h hrun =>
     levelLoop_disjoint fLim gLim_F gLim_B picks st st' picks' h hrun⟩

/-- Witness for C8 at concrete inputs: the assertion conjunct at the
initial `mme` state, the expansion conjunct at a one-node forward open
set, and the level-loop conjunct at an immediately terminating level. -/
theorem C8_no_state_both_open_and_closed_witness :
    (¬(setCount (mmeInit [1, 2] [2, 1] 0).open_F ⟨[1, 2], 0, 0, 0, 0, .F⟩ = true ∧
        setCount (mmeInit [1, 2] [2, 1] 0).closed_F ⟨[1, 2], 0, 0, 0, 0, .F⟩ = true)) ∧
    openClosedDisjointG (expandOneG 2 1 1 ⟨[1, 2, 3], 0, 0, 0, 0, .F⟩
      ⟨INT_MAX, [⟨[1, 2, 3], 0, 0, 0, 0, .F⟩], [], [], [],
       [⟨[1, 2, 3], 0, 0, 0, 0, .F⟩], [], false⟩) ∧
    openClosedDisjointG (⟨INT_MAX, [], [], [], [], [], [], false⟩ : GState) :=
  ⟨(C8_no_state_both_open_and_closed.2.2.1 (mmeInit [1, 2] [2, 1] 0)
      ⟨fun x _ => rfl, fun x _ => rfl⟩ ⟨[1, 2], 0, 0, 0, 0, .F⟩).1,
   C8_no_state_both_open_and_closed.2.2.2.2.1 2 1 1 ⟨[1, 2, 3], 0, 0, 0, 0, .F⟩
     ⟨INT_MAX, [⟨[1, 2, 3], 0, 0, 0, 0, .F⟩], [], [], [],
      [⟨[1, 2, 3], 0, 0, 0, 0, .F⟩], [], false⟩
     ⟨fun x _ => rfl, fun x _ => rfl⟩,
   C8_no_state_both_open_and_closed.2.2.2.2.2 2 1 1 []
     ⟨INT_MAX, [], [], [], [], [], [], false⟩
     ⟨INT_MAX, [], [], [], [], [], [], false⟩ []
     ⟨fun x _ => rfl, fun x _ => rfl⟩ rfl⟩
theorem mem_setErase {t : List Node} {x y : Node} (h : y ∈ setErase t x) : y ∈ t :=
  List.mem_of_mem_filter h

theorem mem_setInsert {t : List Node} {x y : Node} (h : y ∈ setInsert t x) : y ∈ t ∨ y = x := by
  unfold setInsert at h
  split at h
  · exact .inl h
  · rcases List.mem_append.mp h with h1 | h1
    · exact .inl h1
    · exact .inr (List.mem_singleton.mp h1)

theorem setFind_some_facts {t : List Node} {x m : Node} (h : setFind t x = some m) :
    m ∈ t ∧ m.s = x.s := by
  refine ⟨List.mem_of_find?_eq_some h, ?_⟩
  have := List.find?_some h
  simpa [nodeEqual_eq_decide] using this

theorem setCount_true_iff {t : List Node} {x : Node} :
    setCount t x = true ↔ ∃ y, y ∈ t ∧ y.s = x.s := by
  simp [setCount, List.any_eq_true, nodeEqual_eq_decide]

theorem setCount_false_iff {t : List Node} {x : Node} :
    setCount t x = false ↔ ∀ y ∈ t, y.s ≠ x.s := by
  rw [← Bool.not_eq_true, setCount_true_iff]
  simp

theorem mem_statesOf {t : List Node} {s : List Int} :
    s ∈ statesOf t ↔ ∃ y, y ∈ t ∧ y.s = s := by
  simp [statesOf]

theorem statesOf_append (a b : List Node) :
    statesOf (a ++ b) = statesOf a ++ statesOf b := by
  simp [statesOf]

theorem statesOf_setErase_nodup {t : List Node} {x : Node}
    (h : (statesOf t).Nodup) : (statesOf (setErase t x)).Nodup :=
  h.sublist (List.Sublist.map _ (List.filter_sublist t))

theorem not_mem_statesOf_setErase (t : List Node) (x : Node) :
    x.s ∉ statesOf (setErase t x) := by
  intro hmem
  obtain ⟨y, hy, hys⟩ := mem_statesOf.mp hmem
  have := List.of_mem_filter hy
  simp [nodeEqual_eq_decide, hys] at this

theorem setErase_eq_self {t : List Node} {x : Node} (h : ∀ y ∈ t, y.s ≠ x.s) :
    setErase t x = t :=
  List.filter_eq_self.mpr fun y hy => by simp [nodeEqual_eq_decide, h y hy]

theorem perm_cons_setErase {t : List Node} {x y : Node} (hnd : (statesOf t).Nodup)
    (hy : y ∈ t) (hxy : y.s = x.s) : t.Perm (y :: setErase t x) := by
  induction t with
  | nil => cases hy
  | cons a t ih =>
      have hnd' : (statesOf t).Nodup := (List.nodup_cons.mp hnd).2
      have hhead : a.s ∉ statesOf t := (List.nodup_cons.mp hnd).1
      rcases List.mem_cons.mp hy with rfl | hyt
      · have ha : nodeEqual y x = true := by simp [nodeEqual_eq_decide, hxy]
        have hnot : ∀ z ∈ t, z.s ≠ x.s := by
          intro z hz hzx
          exact hhead (mem_statesOf.mpr ⟨z, hz, by rw [hzx, ← hxy]⟩)
        have he : setErase (y :: t) x = setErase t x := by
          simp [setErase, List.filter_cons, ha]
        rw [he, setErase_eq_self hnot]
      · have hsa : a.s ≠ x.s := by
          intro he
          exact hhead (mem_statesOf.mpr ⟨y, hyt, by rw [hxy, he]⟩)
        have ha : nodeEqual a x = false := by simp [nodeEqual_eq_decide, hsa]
        have he : setErase (a :: t) x = a :: setErase t x := by
          simp [setErase, List.filter_cons, ha]
        rw [he]
        exact ((ih hnd' hyt).cons a).trans (List.Perm.swap y a (setErase t x))

theorem setErase_length {t : List Node} {x y : Node} (hnd : (statesOf t).Nodup)
    (hy : y ∈ t) (hxy : y.s = x.s) : (setErase t x).length + 1 = t.length := by
  have := (perm_cons_setErase hnd hy hxy).length_eq
  simpa [Nat.add_comm] using this.symm

theorem setErase_gTotal (g : Node → Int) {t : List Node} {x y : Node}
    (hnd : (statesOf t).Nodup) (hy : y ∈ t) (hxy : y.s = x.s) :
    gTotal g t = (g y).toNat + gTotal g (setErase t x) := by
  have hperm := (perm_cons_setErase hnd hy hxy).map fun z => (g z).toNat
  have := hperm.sum_eq
  simpa [gTotal] using this

theorem length_le_of_nodup_states {S : List (List Int)} {t : List Node}
    (hmem : ∀ x ∈ t, x.s ∈ S) (hnd : (statesOf t).Nodup) : t.length ≤ S.length := by
  have h1 : (statesOf t).length = t.length := List.length_map t _
  have h2 : (statesOf t).toFinset.card = (statesOf t).length := List.toFinset_card_of_nodup hnd
  have h3 : (statesOf t).toFinset ⊆ S.toFinset := by
    intro s hs
    rw [List.mem_toFinset] at hs ⊢
    obtain ⟨y, hy, rfl⟩ := mem_statesOf.mp hs
    exact hmem y hy
  calc t.length = (statesOf t).toFinset.card := by rw [h2, h1]
    _ ≤ S.toFinset.card := Finset.card_le_card h3
    _ ≤ S.length := List.toFinset_card_le S

theorem foldl_preserves_mem {α β : Type} (P : β → Prop) (f : β → α → β) :
    ∀ (l : List α) (b : β), P b → (∀ st a, a ∈ l → P st → P (f st a)) → P (l.foldl f b)
  | [], _, hb, _ => hb
  | a :: l, b, hb, hf =>
      foldl_preserves_mem P f l (f b a) (hf b a (List.mem_cons_self a l) hb)
        (fun st a' ha' h' => hf st a' (List.mem_cons_of_mem _ ha') h')

theorem scanStep_opt (eps : Int) (dir : Direction) (acc : ScanAcc) (node : Node) :
    (scanStep eps dir acc node).opt = acc.opt ∨ (scanStep eps dir acc node).opt = node := by
  unfold scanStep
  cases dir <;> dsimp only <;> split
  · simp
  · split
    · split <;> simp
    · simp
  · simp
  · split
    · split <;> simp
    · simp

theorem scan_opt_mem {open_D : List Node} (eps : Int) (dir : Direction) (h : open_D ≠ []) :
    (scan open_D eps dir).opt ∈ open_D := by
  unfold scan
  refine foldl_preserves_mem (fun acc => acc.opt ∈ open_D) (scanStep eps dir) open_D _ ?_ ?_
  · cases open_D with
    | nil => exact absurd rfl h
    | cons a t => exact List.mem_cons_self a t
  · intro st a ha hst
    rcases scanStep_opt eps dir st a with h1 | h1 <;> rw [h1]
    · exact hst
    · exact ha

theorem mem_expandPancake_F {node : Node} {gap_x : Nat} {x : Node}
    (hdir : node.dir = .F) (hx : x ∈ expandPancake node gap_x) :
    (∃ k, 1 ≤ k ∧ k < node.s.length - 1 ∧ x.s = flip node.s k) ∧
    x.g_F = node.g_F + 1 ∧ x.dir = .F := by
  unfold expandPancake at hx
  simp only [hdir] at hx
  obtain ⟨k, hk, rfl⟩ := List.mem_map.mp hx
  rw [List.mem_range'] at hk
  obtain ⟨i, hi, rfl⟩ := hk
  refine ⟨⟨1 + 1 * i, by omega, by omega, rfl⟩, rfl, rfl⟩

theorem mem_expandPancake_B {node : Node} {gap_x : Nat} {x : Node}
    (hdir : node.dir = .B) (hx : x ∈ expandPancake node gap_x) :
    (∃ k, 1 ≤ k ∧ k < node.s.length - 1 ∧ x.s = flip node.s k) ∧
    x.g_B = node.g_B + 1 ∧ x.dir = .B := by
  unfold expandPancake at hx
  simp only [hdir] at hx
  obtain ⟨k, hk, rfl⟩ := List.mem_map.mp hx
  rw [List.mem_range'] at hk
  obtain ⟨i, hi, rfl⟩ := hk
  refine ⟨⟨1 + 1 * i, by omega, by omega, rfl⟩, rfl, rfl⟩

theorem setFind_isSome_of_count {t : List Node} {x : Node} (h : setCount t x = true) :
    ∃ m, setFind t x = some m := by
  obtain ⟨y, hy, hpy⟩ := List.any_eq_true.mp h
  have : (setFind t x).isSome := List.find?_isSome.mpr ⟨y, hy, hpy⟩
  exact Option.isSome_iff_exists.mp this

theorem not_mem_statesOf_of_count_false {t : List Node} {x : Node}
    (h : setCount t x = false) : x.s ∉ statesOf t := by
  intro hmem
  obtain ⟨y, hy, hys⟩ := mem_statesOf.mp hmem
  exact setCount_false_iff.mp h y hy hys

theorem setFind_eq_none {t : List Node} {x : Node} (h : setCount t x = false) :
    setFind t x = none :=
  List.find?_eq_none.mpr fun y hy => by
    have := setCount_false_iff.mp h y hy
    simp [nodeEqual_eq_decide, this]

theorem setInsert_eq_append {t : List Node} {x : Node} (h : setCount t x = false) :
    setInsert t x = t ++ [x] := by
  unfold setInsert
  rw [h]
  simp

theorem gTotal_append (g : Node → Int) (a b : List Node) :
    gTotal g (a ++ b) = gTotal g a + gTotal g b := by
  simp [gTotal]

/-- Relaxing a freshly discovered state: appending the new node to the open
set preserves the side invariant, grows the discovered count by one, and
does not increase the side measure. -/
theorem relax_sideInv_new (S : List (List Int)) (d : Direction) (g : Node → Int)
    {op cl : List Node} (hI : sideInv S d g op cl)
    {s1 : Node} (hS : s1.s ∈ S) (hdir : s1.dir = d) (hg0 : 0 ≤ g s1)
    (hgb : (g s1).toNat + 1 ≤ op.length + cl.length + 1)
    (hop : setCount op s1 = false) (hcl : setCount cl s1 = false) :
    sideInv S d g (op ++ [s1]) cl ∧
    (op ++ [s1]).length + cl.length = op.length + cl.length + 1 ∧
    muSide S.length g (op ++ [s1]) cl ≤ muSide S.length g op cl := by
  obtain ⟨hmem, hnd⟩ := hI
  have hlen : (op ++ [s1]).length + cl.length = op.length + cl.length + 1 := by
    simp
    omega
  have hmem' : ∀ x, x ∈ (op ++ [s1]) ++ cl →
      x.s ∈ S ∧ x.dir = d ∧ 0 ≤ g x ∧ (g x).toNat + 1 ≤ (op ++ [s1]).length + cl.length := by
    intro x hx
    rw [hlen]
    rcases List.mem_append.mp hx with hx1 | hx2
    · rcases List.mem_append.mp hx1 with hx3 | hx3
      · have := hmem x (List.mem_append.mpr (.inl hx3))
        exact ⟨this.1, this.2.1, this.2.2.1, by omega⟩
      · have hx4 : x = s1 := List.mem_singleton.mp hx3
        subst hx4
        exact ⟨hS, hdir, hg0, hgb⟩
    · have := hmem x (List.mem_append.mpr (.inr hx2))
      exact ⟨this.1, this.2.1, this.2.2.1, by omega⟩
  have hperm : ((op ++ [s1]) ++ cl).Perm (s1 :: (op ++ cl)) := by
    rw [List.append_assoc]
    exact List.perm_middle
  have hnd' : (statesOf ((op ++ [s1]) ++ cl)).Nodup := by
    unfold statesOf
    rw [(hperm.map fun x => x.s).nodup_iff, List.map_cons]
    refine List.nodup_cons.mpr ⟨?_, hnd⟩
    rw [show ((op ++ cl).map fun x => x.s) = statesOf (op ++ cl) from rfl]
    rw [statesOf_append]
    intro hc
    rcases List.mem_append.mp hc with hc1 | hc1
    · exact not_mem_statesOf_of_count_false hop hc1
    · exact not_mem_statesOf_of_count_false hcl hc1
  refine ⟨⟨hmem', hnd'⟩, hlen, ?_⟩
  have hdR : op.length + cl.length + 1 ≤ S.length := by
    have := length_le_of_nodup_states (fun x hx => (hmem' x hx).1) hnd'
    simp only [List.length_append, List.length_singleton] at this
    omega
  have hgt : gTotal g ((op ++ [s1]) ++ cl) = gTotal g (op ++ cl) + (g s1).toNat := by
    have h2 := (hperm.map fun x => (g x).toNat).sum_eq
    simp only [List.map_cons, List.sum_cons] at h2
    unfold gTotal
    omega
  have hws : (2 * S.length + 4) * (S.length - (op.length + cl.length)) =
      (2 * S.length + 4) * (S.length - (op.length + cl.length + 1)) + (2 * S.length + 4) := by
    have h3 : S.length - (op.length + cl.length) =
        (S.length - (op.length + cl.length + 1)) + 1 := by omega
    rw [h3, Nat.mul_add, Nat.mul_one]
  unfold muSide
  rw [hgt, hws]
  simp only [List.length_append, List.length_singleton]
  have h4 : op.length + 1 + cl.length = op.length + cl.length + 1 := by omega
  rw [h4]
  omega

theorem statesOf_setErase_subset (t : List Node) (x : Node) :
    ∀ s, s ∈ statesOf (setErase t x) → s ∈ statesOf t := by
  intro s hs
  obtain ⟨y, hy, rfl⟩ := mem_statesOf.mp hs
  exact mem_statesOf.mpr ⟨y, mem_setErase hy, rfl⟩

/-- Relaxing a rediscovered state at a strictly smaller recorded cost:
erasing the state from open and closed and appending the updated node to
open preserves the side invariant, keeps the discovered count, and does
not increase the side measure. -/
theorem relax_sideInv_reopen (S : List (List Int)) (d : Direction) (g : Node → Int)
    {op cl : List Node} (hI : sideInv S d g op cl)
    {s_node s1 y : Node} (hs1s : s1.s = s_node.s) (hdir : s1.dir = d)
    (hy : y ∈ op ++ cl) (hys : y.s = s_node.s)
    (hg0 : 0 ≤ g s1) (hlt : g s1 < g y) :
    sideInv S d g (setErase op s_node ++ [s1]) (setErase cl s_node) ∧
    (setErase op s_node ++ [s1]).length + (setErase cl s_node).length =
      op.length + cl.length ∧
    muSide S.length g (setErase op s_node ++ [s1]) (setErase cl s_node) ≤
      muSide S.length g op cl := by
  obtain ⟨hmem, hnd⟩ := hI
  have hnd0 := hnd
  rw [statesOf_append, List.nodup_append] at hnd0
  obtain ⟨hndop, hndcl, hdisjoint⟩ := hnd0
  have hyb := hmem y hy
  have hs1S : s1.s ∈ S := by rw [hs1s, ← hys]; exact hyb.1
  have hgyb : (g y).toNat + 1 ≤ op.length + cl.length := hyb.2.2.2
  have hgy0 : 0 ≤ g y := hyb.2.2.1
  rcases List.mem_append.mp hy with hyop | hycl
  · -- the rediscovered state currently sits in the open set
    have hclno : ∀ z ∈ cl, z.s ≠ s_node.s := by
      intro z hz he
      exact hdisjoint (mem_statesOf.mpr ⟨y, hyop, rfl⟩)
        (mem_statesOf.mpr ⟨z, hz, by rw [he, ← hys]⟩)
    have hcle : setErase cl s_node = cl := setErase_eq_self hclno
    have hpop : op.Perm (y :: setErase op s_node) := perm_cons_setErase hndop hyop hys
    have hlenop : (setErase op s_node).length + 1 = op.length := by
      have := hpop.length_eq
      simpa [Nat.add_comm] using this.symm
    have hlen : (setErase op s_node ++ [s1]).length + (setErase cl s_node).length =
        op.length + cl.length := by
      rw [hcle]
      simp only [List.length_append, List.length_singleton]
      omega
    have hperm : ((setErase op s_node ++ [s1]) ++ cl).Perm
        (s1 :: (setErase op s_node ++ cl)) := by
      rw [List.append_assoc]
      exact List.perm_middle
    have hs1nm : s1.s ∉ statesOf (setErase op s_node ++ cl) := by
      rw [statesOf_append]
      intro hc
      rcases List.mem_append.mp hc with hc1 | hc1
      · rw [hs1s] at hc1
        exact not_mem_statesOf_setErase op s_node hc1
      · obtain ⟨z, hz, hzs⟩ := mem_statesOf.mp hc1
        exact hclno z hz (by rw [hzs, hs1s])
    have hndrest : (statesOf (setErase op s_node ++ cl)).Nodup := by
      rw [statesOf_append, List.nodup_append]
      refine ⟨statesOf_setErase_nodup hndop, hndcl, ?_⟩
      intro a ha hb
      exact hdisjoint (statesOf_setErase_subset op s_node a ha) hb
    have hnd' : (statesOf ((setErase op s_node ++ [s1]) ++ cl)).Nodup := by
      unfold statesOf
      rw [(hperm.map fun x => x.s).nodup_iff, List.map_cons]
      exact List.nodup_cons.mpr ⟨hs1nm, hndrest⟩
    have hmem' : ∀ x, x ∈ (setErase op s_node ++ [s1]) ++ setErase cl s_node →
        x.s ∈ S ∧ x.dir = d ∧ 0 ≤ g x ∧
          (g x).toNat + 1 ≤ (setErase op s_node ++ [s1]).length + (setErase cl s_node).length := by
      intro x hx
      rw [hlen]
      rw [hcle] at hx
      rcases List.mem_append.mp hx with hx1 | hx2
      · rcases List.mem_append.mp hx1 with hx3 | hx3
        · exact hmem x (List.mem_append.mpr (.inl (mem_setErase hx3)))
        · have hx4 : x = s1 := List.mem_singleton.mp hx3
          subst hx4
          exact ⟨hs1S, hdir, hg0, by omega⟩
      · exact hmem x (List.mem_append.mpr (.inr hx2))
    refine ⟨⟨hmem', ?_⟩, hlen, ?_⟩
    · rw [hcle]
      exact hnd'
    · have hgop : gTotal g op = (g y).toNat + gTotal g (setErase op s_node) :=
        setErase_gTotal g hndop hyop hys
      have hgt : gTotal g ((setErase op s_node ++ [s1]) ++ cl) =
          gTotal g (setErase op s_node) + (g s1).toNat + gTotal g cl := by
        rw [gTotal_append, gTotal_append]
        simp only [gTotal, List.map_cons, List.sum_cons, List.map_nil, List.sum_nil]
        omega
      have hgtold : gTotal g (op ++ cl) = (g y).toNat + gTotal g (setErase op s_node) +
          gTotal g cl := by
        rw [gTotal_append, hgop]
      unfold muSide
      rw [hcle, hgt, hgtold]
      simp only [List.length_append, List.length_singleton]
      have h5 : (setErase op s_node).length + 1 + cl.length = op.length + cl.length := by
        omega
      rw [h5]
      omega
  · -- the rediscovered state currently sits in the closed set
    have hopno : ∀ z ∈ op, z.s ≠ s_node.s := by
      intro z hz he
      exact hdisjoint (mem_statesOf.mpr ⟨z, hz, rfl⟩)
        (mem_statesOf.mpr ⟨y, hycl, by rw [hys, he]⟩)
    have hope : setErase op s_node = op := setErase_eq_self hopno
    have hpcl : cl.Perm (y :: setErase cl s_node) := perm_cons_setErase hndcl hycl hys
    have hlencl : (setErase cl s_node).length + 1 = cl.length := by
      have := hpcl.length_eq
      simpa [Nat.add_comm] using this.symm
    have hlen : (setErase op s_node ++ [s1]).length + (setErase cl s_node).length =
        op.length + cl.length := by
      rw [hope]
      simp only [List.length_append, List.length_singleton]
      omega
    have hperm : ((op ++ [s1]) ++ setErase cl s_node).Perm
        (s1 :: (op ++ setErase cl s_node)) := by
      rw [List.append_assoc]
      exact List.perm_middle
    have hs1nm : s1.s ∉ statesOf (op ++ setErase cl s_node) := by
      rw [statesOf_append]
      intro hc
      rcases List.mem_append.mp hc with hc1 | hc1
      · obtain ⟨z, hz, hzs⟩ := mem_statesOf.mp hc1
        exact hopno z hz (by rw [hzs, hs1s])
      · rw [hs1s] at hc1
        exact not_mem_statesOf_setErase cl s_node hc1
    have hndrest : (statesOf (op ++ setErase cl s_node)).Nodup := by
      rw [statesOf_append, List.nodup_append]
      refine ⟨hndop, statesOf_setErase_nodup hndcl, ?_⟩
      intro a ha hb
      exact hdisjoint ha (statesOf_setErase_subset cl s_node a hb)
    have hnd' : (statesOf ((op ++ [s1]) ++ setErase cl s_node)).Nodup := by
      unfold statesOf
      rw [(hperm.map fun x => x.s).nodup_iff, List.map_cons]
      exact List.nodup_cons.mpr ⟨hs1nm, hndrest⟩
    have hmem' : ∀ x, x ∈ (setErase op s_node ++ [s1]) ++ setErase cl s_node →
        x.s ∈ S ∧ x.dir = d ∧ 0 ≤ g x ∧
          (g x).toNat + 1 ≤ (setErase op s_node ++ [s1]).length + (setErase cl s_node).length := by
      intro x hx
      rw [hlen]
      rw [hope] at hx
      rcases List.mem_append.mp hx with hx1 | hx2
      · rcases List.mem_append.mp hx1 with hx3 | hx3
        · exact hmem x (List.mem_append.mpr (.inl hx3))
        · have hx4 : x = s1 := List.mem_singleton.mp hx3
          subst hx4
          exact ⟨hs1S, hdir, hg0, by omega⟩
      · exact hmem x (List.mem_append.mpr (.inr (mem_setErase hx2)))
    refine ⟨⟨hmem', ?_⟩, hlen, ?_⟩
    · rw [hope]
      exact hnd'
    · have hgcl : gTotal g cl = (g y).toNat + gTotal g (setErase cl s_node) :=
        setErase_gTotal g hndcl hycl hys
      have hgt : gTotal g ((op ++ [s1]) ++ setErase cl s_node) =
          gTotal g op + (g s1).toNat + gTotal g (setErase cl s_node) := by
        rw [gTotal_append, gTotal_append]
        simp only [gTotal, List.map_cons, List.sum_cons, List.map_nil, List.sum_nil]
        omega
      have hgtold : gTotal g (op ++ cl) = gTotal g op + ((g y).toNat +
          gTotal g (setErase cl s_node)) := by
        rw [gTotal_append, hgcl]
      unfold muSide
      rw [hope, hgt, hgtold]
      simp only [List.length_append, List.length_singleton]
      have h5 : op.length + 1 + (setErase cl s_node).length = op.length + cl.length := by
        omega
      rw [h5]
      omega

/-- When a state is recorded in the forward open or closed set, `old_g_F`
is the `g_F` of a recorded node carrying that state. -/
theorem old_g_F_spec {st : MState} {s_node : Node}
    (h : (setCount st.open_F s_node || setCount st.closed_F s_node) = true) :
    ∃ y, y ∈ st.open_F ++ st.closed_F ∧ y.s = s_node.s ∧ old_g_F st s_node = y.g_F := by
  by_cases hop : setCount st.open_F s_node = true
  · obtain ⟨m, hm⟩ := setFind_isSome_of_count hop
    obtain ⟨hmm, hms⟩ := setFind_some_facts hm
    refine ⟨m, List.mem_append.mpr (.inl hmm), hms, ?_⟩
    unfold old_g_F
    rw [hm]
  · have hopf : setCount st.open_F s_node = false := by simpa using hop
    have hcl : setCount st.closed_F s_node = true := by
      rcases Bool.or_eq_true_iff.mp h with h1 | h1
      · rw [hopf] at h1; cases h1
      · exact h1
    obtain ⟨m, hm⟩ := setFind_isSome_of_count hcl
    obtain ⟨hmm, hms⟩ := setFind_some_facts hm
    refine ⟨m, List.mem_append.mpr (.inr hmm), hms, ?_⟩
    unfold old_g_F
    rw [setFind_eq_none hopf, hm]

/-- Backward counterpart of `old_g_F_spec`. -/
theorem old_g_B_spec {st : MState} {s_node : Node}
    (h : (setCount st.open_B s_node || setCount st.closed_B s_node) = true) :
    ∃ y, y ∈ st.open_B ++ st.closed_B ∧ y.s = s_node.s ∧ old_g_B st s_node = y.g_B := by
  by_cases hop : setCount st.open_B s_node = true
  · obtain ⟨m, hm⟩ := setFind_isSome_of_count hop
    obtain ⟨hmm, hms⟩ := setFind_some_facts hm
    refine ⟨m, List.mem_append.mpr (.inl hmm), hms, ?_⟩
    unfold old_g_B
    rw [hm]
  · have hopf : setCount st.open_B s_node = false := by simpa using hop
    have hcl : setCount st.closed_B s_node = true := by
      rcases Bool.or_eq_true_iff.mp h with h1 | h1
      · rw [hopf] at h1; cases h1
      · exact h1
    obtain ⟨m, hm⟩ := setFind_isSome_of_count hcl
    obtain ⟨hmm, hms⟩ := setFind_some_facts hm
    refine ⟨m, List.mem_append.mpr (.inr hmm), hms, ?_⟩
    unfold old_g_B
    rw [setFind_eq_none hopf, hm]

/-- Processing one forward successor of an expansion on a pair of disjoint
certificate sets: the certificate invariant is preserved (in particular the
opposite-open collision lookup always fails, so `U` stays at the sentinel),
the measure does not increase, the backward sets are untouched, and the
forward discovered count does not shrink. -/
theorem processMSuccF_cert {S_F S_B : List (List Int)}
    (hdisj : ∀ s ∈ S_F, s ∉ S_B) {st : MState} (hI : mmeCertInv S_F S_B st)
    {node s_node : Node} (hS : s_node.s ∈ S_F) (hdir : s_node.dir = .F)
    (hg0 : 0 ≤ node.g_F)
    (hgb : node.g_F.toNat + 1 ≤ st.open_F.length + st.closed_F.length) :
    mmeCertInv S_F S_B (processMSuccF node st s_node) ∧
    muMme S_F S_B (processMSuccF node st s_node) ≤ muMme S_F S_B st ∧
    (processMSuccF node st s_node).open_B = st.open_B ∧
    (processMSuccF node st s_node).closed_B = st.closed_B ∧
    st.open_F.length + st.closed_F.length ≤
      (processMSuccF node st s_node).open_F.length +
        (processMSuccF node st s_node).closed_F.length := by
  obtain ⟨hIF, hIB, hU⟩ := hI
  have hcolB : setFind st.open_B { s_node with g_F := node.g_F + 1 } = none := by
    apply setFind_eq_none
    apply setCount_false_iff.mpr
    intro z hz he
    have hzB : z.s ∈ S_B := (hIB.1 z (List.mem_append.mpr (.inl hz))).1
    rw [he] at hzB
    exact hdisj s_node.s hS hzB
  unfold processMSuccF
  dsimp only
  by_cases hc : ((setCount st.open_F s_node || setCount st.closed_F s_node) &&
      decide (node.g_F + 1 ≥ old_g_F st s_node)) = true
  · rw [if_pos hc]
    exact ⟨⟨hIF, hIB, hU⟩, le_refl _, rfl, rfl, le_refl _⟩
  · rw [if_neg hc, hcolB]
    by_cases hm : (setCount st.open_F s_node || setCount st.closed_F s_node) = true
    · -- rediscovery at a strictly smaller cost: reopen
      have hnge : ¬ (node.g_F + 1 ≥ old_g_F st s_node) := fun hp => hc (by rw [hm]; simp [hp])
      obtain ⟨y, hy, hys, hyold⟩ := old_g_F_spec hm
      have hlt : (node.g_F + 1 : Int) < y.g_F := by rw [← hyold]; omega
      have hrel := relax_sideInv_reopen S_F .F (fun x => x.g_F) hIF
        (show ({ s_node with g_F := node.g_F + 1 } : Node).s = s_node.s from rfl)
        (show ({ s_node with g_F := node.g_F + 1 } : Node).dir = .F from hdir)
        hy hys
        (show (0:Int) ≤ node.g_F + 1 by omega)
        (show (node.g_F + 1 : Int) < y.g_F from hlt)
      have hcer : setCount (setErase st.open_F s_node)
          { s_node with g_F := node.g_F + 1 } = false := by
        rw [setCount_erase]
        simp [nodeEqual_eq_decide]
      simp only [if_pos hm]
      rw [setInsert_eq_append hcer]
      refine ⟨⟨hrel.1, hIB, hU⟩, ?_, trivial, trivial, ?_⟩
      · unfold muMme
        dsimp only
        exact Nat.add_le_add_right hrel.2.2 _
      · dsimp only
        omega
    · -- the state is new: append it to the open set
      have hm' : (setCount st.open_F s_node || setCount st.closed_F s_node) = false := by
        simpa using hm
      have hopf : setCount st.open_F s_node = false := (Bool.or_eq_false_iff.mp hm').1
      have hclf : setCount st.closed_F s_node = false := (Bool.or_eq_false_iff.mp hm').2
      have hops1 : setCount st.open_F { s_node with g_F := node.g_F + 1 } = false := by
        rw [setCount_state_congr st.open_F
          (show ({ s_node with g_F := node.g_F + 1 } : Node).s = s_node.s from rfl)]
        exact hopf
      have hcls1 : setCount st.closed_F { s_node with g_F := node.g_F + 1 } = false := by
        rw [setCount_state_congr st.closed_F
          (show ({ s_node with g_F := node.g_F + 1 } : Node).s = s_node.s from rfl)]
        exact hclf
      have hrel := relax_sideInv_new S_F .F (fun x => x.g_F) hIF
        (show ({ s_node with g_F := node.g_F + 1 } : Node).s ∈ S_F from hS)
        (show ({ s_node with g_F := node.g_F + 1 } : Node).dir = .F from hdir)
        (show (0:Int) ≤ node.g_F + 1 by omega)
        (show ((node.g_F + 1 : Int)).toNat + 1 ≤
          st.open_F.length + st.closed_F.length + 1 by omega)
        hops1 hcls1
      simp only [if_neg hm]
      rw [setInsert_eq_append hops1]
      refine ⟨⟨hrel.1, hIB, hU⟩, ?_, trivial, trivial, ?_⟩
      · unfold muMme
        dsimp only
        exact Nat.add_le_add_right hrel.2.2 _
      · dsimp only
        simp only [List.length_append, List.length_singleton]
        omega

/-- Backward counterpart of `processMSuccF_cert`. -/
theorem processMSuccB_cert {S_F S_B : List (List Int)}
    (hdisj : ∀ s ∈ S_F, s ∉ S_B) {st : MState} (hI : mmeCertInv S_F S_B st)
    {node s_node : Node} (hS : s_node.s ∈ S_B) (hdir : s_node.dir = .B)
    (hg0 : 0 ≤ node.g_B)
    (hgb : node.g_B.toNat + 1 ≤ st.open_B.length + st.closed_B.length) :
    mmeCertInv S_F S_B (processMSuccB node st s_node) ∧
    muMme S_F S_B (processMSuccB node st s_node) ≤ muMme S_F S_B st ∧
    (processMSuccB node st s_node).open_F = st.open_F ∧
    (processMSuccB node st s_node).closed_F = st.closed_F ∧
    st.open_B.length + st.closed_B.length ≤
      (processMSuccB node st s_node).open_B.length +
        (processMSuccB node st s_node).closed_B.length := by
  obtain ⟨hIF, hIB, hU⟩ := hI
  have hcolF : setFind st.open_F { s_node with g_B := node.g_B + 1 } = none := by
    apply setFind_eq_none
    apply setCount_false_iff.mpr
    intro z hz he
    have hzF : z.s ∈ S_F := (hIF.1 z (List.mem_append.mpr (.inl hz))).1
    rw [he] at hzF
    exact hdisj s_node.s hzF hS
  unfold processMSuccB
  dsimp only
  by_cases hc : ((setCount st.open_B s_node || setCount st.closed_B s_node) &&
      decide (node.g_B + 1 ≥ old_g_B st s_node)) = true
  · rw [if_pos hc]
    exact ⟨⟨hIF, hIB, hU⟩, le_refl _, rfl, rfl, le_refl _⟩
  · rw [if_neg hc, hcolF]
    by_cases hm : (setCount st.open_B s_node || setCount st.closed_B s_node) = true
    · -- rediscovery at a strictly smaller cost: reopen
      have hnge : ¬ (node.g_B + 1 ≥ old_g_B st s_node) := fun hp => hc (by rw [hm]; simp [hp])
      obtain ⟨y, hy, hys, hyold⟩ := old_g_B_spec hm
      have hlt : (node.g_B + 1 : Int) < y.g_B := by rw [← hyold]; omega
      have hrel := relax_sideInv_reopen S_B .B (fun x => x.g_B) hIB
        (show ({ s_node with g_B := node.g_B + 1 } : Node).s = s_node.s from rfl)
        (show ({ s_node with g_B := node.g_B + 1 } : Node).dir = .B from hdir)
        hy hys
        (show (0:Int) ≤ node.g_B + 1 by omega)
        (show (node.g_B + 1 : Int) < y.g_B from hlt)
      have hcer : setCount (setErase st.open_B s_node)
          { s_node with g_B := node.g_B + 1 } = false := by
        rw [setCount_erase]
        simp [nodeEqual_eq_decide]
      simp only [if_pos hm]
      rw [setInsert_eq_append hcer]
      refine ⟨⟨hIF, hrel.1, hU⟩, ?_, trivial, trivial, ?_⟩
      · unfold muMme
        dsimp only
        exact Nat.add_le_add_left hrel.2.2 _
      · dsimp only
        omega
    · -- the state is new: append it to the open set
      have hm' : (setCount st.open_B s_node || setCount st.closed_B s_node) = false := by
        simpa using hm
      have hopf : setCount st.open_B s_node = false := (Bool.or_eq_false_iff.mp hm').1
      have hclf : setCount st.closed_B s_node = false := (Bool.or_eq_false_iff.mp hm').2
      have hops1 : setCount st.open_B { s_node with g_B := node.g_B + 1 } = false := by
        rw [setCount_state_congr st.open_B
          (show ({ s_node with g_B := node.g_B + 1 } : Node).s = s_node.s from rfl)]
        exact hopf
      have hcls1 : setCount st.closed_B { s_node with g_B := node.g_B + 1 } = false := by
        rw [setCount_state_congr st.closed_B
          (show ({ s_node with g_B := node.g_B + 1 } : Node).s = s_node.s from rfl)]
        exact hclf
      have hrel := relax_sideInv_new S_B .B (fun x => x.g_B) hIB
        (show ({ s_node with g_B := node.g_B + 1 } : Node).s ∈ S_B from hS)
        (show ({ s_node with g_B := node.g_B + 1 } : Node).dir = .B from hdir)
        (show (0:Int) ≤ node.g_B + 1 by omega)
        (show ((node.g_B + 1 : Int)).toNat + 1 ≤
          st.open_B.length + st.closed_B.length + 1 by omega)
        hops1 hcls1
      simp only [if_neg hm]
      rw [setInsert_eq_append hops1]
      refine ⟨⟨hIF, hrel.1, hU⟩, ?_, trivial, trivial, ?_⟩
      · unfold muMme
        dsimp only
        exact Nat.add_le_add_left hrel.2.2 _
      · dsimp only
        simp only [List.length_append, List.length_singleton]
        omega

/-- Moving a recorded open node to the closed set preserves the side
invariant, keeps the discovered count, and decreases the side measure by
exactly one. -/
theorem move_sideInv (S : List (List Int)) (d : Direction) (g : Node → Int)
    {op cl : List Node} (hI : sideInv S d g op cl)
    {node : Node} (hnode : node ∈ op) :
    sideInv S d g (setErase op node) (setInsert cl node) ∧
    (setErase op node).length + (setInsert cl node).length = op.length + cl.length ∧
    muSide S.length g (setErase op node) (setInsert cl node) + 1 =
      muSide S.length g op cl := by
  obtain ⟨hmem, hnd⟩ := hI
  have hnd0 := hnd
  rw [statesOf_append, List.nodup_append] at hnd0
  obtain ⟨hndop, hndcl, hdisjoint⟩ := hnd0
  have hclcount : setCount cl node = false := by
    apply setCount_false_iff.mpr
    intro z hz he
    exact hdisjoint (mem_statesOf.mpr ⟨node, hnode, rfl⟩)
      (mem_statesOf.mpr ⟨z, hz, he⟩)
  have hins : setInsert cl node = cl ++ [node] := setInsert_eq_append hclcount
  have hpop : op.Perm (node :: setErase op node) := perm_cons_setErase hndop hnode rfl
  have hlenop : (setErase op node).length + 1 = op.length := by
    have := hpop.length_eq
    simpa [Nat.add_comm] using this.symm
  have hperm : (setErase op node ++ (cl ++ [node])).Perm (op ++ cl) := by
    rw [← List.append_assoc]
    refine (List.perm_append_singleton node (setErase op node ++ cl)).trans ?_
    exact ((hpop.append_right cl).trans (List.Perm.refl _)).symm
  have hlen : (setErase op node).length + (setInsert cl node).length =
      op.length + cl.length := by
    rw [hins]
    simp only [List.length_append, List.length_singleton]
    omega
  have hgt : gTotal g (setErase op node ++ (cl ++ [node])) = gTotal g (op ++ cl) := by
    have := (hperm.map fun z => (g z).toNat).sum_eq
    simpa [gTotal] using this
  refine ⟨⟨?_, ?_⟩, hlen, ?_⟩
  · intro x hx
    rw [hins] at hx ⊢
    have hx' : x ∈ op ++ cl := hperm.mem_iff.mp hx
    have := hmem x hx'
    simp only [List.length_append, List.length_singleton]
    exact ⟨this.1, this.2.1, this.2.2.1, by omega⟩
  · rw [hins]
    unfold statesOf
    rw [(hperm.map fun x => x.s).nodup_iff]
    exact hnd
  · rw [hins]
    unfold muSide
    rw [hgt]
    simp only [List.length_append, List.length_singleton]
    have h4 : (setErase op node).length + (cl.length + 1) = op.length + cl.length := by
      omega
    rw [h4]
    omega

/-- One forward `mme` expansion on a pair of disjoint, forward-flip-closed
certificate sets: the invariant is preserved, the measure strictly
decreases, and the backward sets are untouched. -/
theorem mmeExpandF_cert {S_F S_B : List (List Int)}
    (hdisj : ∀ s ∈ S_F, s ∉ S_B)
    (hclF : ∀ s ∈ S_F, ∀ k, 1 ≤ k → k < s.length - 1 → flip s k ∈ S_F)
    (gap_x : Nat) {st : MState} (hI : mmeCertInv S_F S_B st)
    {node : Node} (hnode : node ∈ st.open_F) :
    mmeCertInv S_F S_B (mmeExpandF gap_x node st) ∧
    muMme S_F S_B (mmeExpandF gap_x node st) < muMme S_F S_B st ∧
    (mmeExpandF gap_x node st).open_B = st.open_B ∧
    (mmeExpandF gap_x node st).closed_B = st.closed_B := by
  obtain ⟨hIF, hIB, hU⟩ := hI
  have hnb := hIF.1 node (List.mem_append.mpr (.inl hnode))
  have hmv := move_sideInv S_F .F (fun x => x.g_F) hIF hnode
  unfold mmeExpandF
  dsimp only
  have hfold := foldl_preserves_mem
    (fun s : MState => mmeCertInv S_F S_B s ∧
      muMme S_F S_B s ≤ muMme S_F S_B { st with open_F := setErase st.open_F node, closed_F := setInsert st.closed_F node, nodes_expanded := st.nodes_expanded + 1 } ∧
      s.open_B = st.open_B ∧ s.closed_B = st.closed_B ∧
      node.g_F.toNat + 1 ≤ s.open_F.length + s.closed_F.length)
    (processMSuccF node) (expandPancake node gap_x)
    { st with open_F := setErase st.open_F node, closed_F := setInsert st.closed_F node, nodes_expanded := st.nodes_expanded + 1 }
    (by
      refine ⟨⟨hmv.1, hIB, hU⟩, le_refl _, rfl, rfl, ?_⟩
      dsimp only
      have h1 : node.g_F.toNat + 1 ≤ st.open_F.length + st.closed_F.length := hnb.2.2.2
      have h2 := hmv.2.1
      omega)
    (by
      intro s a ha hP
      obtain ⟨hPinv, hPmu, hPoB, hPcB, hPg⟩ := hP
      obtain ⟨⟨k, hk1, hk2, hks⟩, hagF, hadir⟩ := mem_expandPancake_F hnb.2.1 ha
      have haS : a.s ∈ S_F := by rw [hks]; exact hclF node.s hnb.1 k hk1 hk2
      have hstep := processMSuccF_cert hdisj hPinv haS hadir hnb.2.2.1 hPg
      refine ⟨hstep.1, le_trans hstep.2.1 hPmu, ?_, ?_, ?_⟩
      · rw [hstep.2.2.1]; exact hPoB
      · rw [hstep.2.2.2.1]; exact hPcB
      · have h3 := hstep.2.2.2.2
        omega)
  refine ⟨hfold.1, ?_, hfold.2.2.1, hfold.2.2.2.1⟩
  have hmu1 : muMme S_F S_B { st with open_F := setErase st.open_F node, closed_F := setInsert st.closed_F node, nodes_expanded := st.nodes_expanded + 1 } + 1 = muMme S_F S_B st := by
    unfold muMme
    dsimp only
    omega
  have := hfold.2.1
  omega

/-- Backward counterpart of `mmeExpandF_cert`. -/
theorem mmeExpandB_cert {S_F S_B : List (List Int)}
    (hdisj : ∀ s ∈ S_F, s ∉ S_B)
    (hclB : ∀ s ∈ S_B, ∀ k, 1 ≤ k → k < s.length - 1 → flip s k ∈ S_B)
    (gap_x : Nat) {st : MState} (hI : mmeCertInv S_F S_B st)
    {node : Node} (hnode : node ∈ st.open_B) :
    mmeCertInv S_F S_B (mmeExpandB gap_x node st) ∧
    muMme S_F S_B (mmeExpandB gap_x node st) < muMme S_F S_B st ∧
    (mmeExpandB gap_x node st).open_F = st.open_F ∧
    (mmeExpandB gap_x node st).closed_F = st.closed_F := by
  obtain ⟨hIF, hIB, hU⟩ := hI
  have hnb := hIB.1 node (List.mem_append.mpr (.inl hnode))
  have hmv := move_sideInv S_B .B (fun x => x.g_B) hIB hnode
  unfold mmeExpandB
  dsimp only
  have hfold := foldl_preserves_mem
    (fun s : MState => mmeCertInv S_F S_B s ∧
      muMme S_F S_B s ≤ muMme S_F S_B { st with open_B := setErase st.open_B node, closed_B := setInsert st.closed_B node, nodes_expanded := st.nodes_expanded + 1 } ∧
      s.open_F = st.open_F ∧ s.closed_F = st.closed_F ∧
      node.g_B.toNat + 1 ≤ s.open_B.length + s.closed_B.length)
    (processMSuccB node) (expandPancake node gap_x)
    { st with open_B := setErase st.open_B node, closed_B := setInsert st.closed_B node, nodes_expanded := st.nodes_expanded + 1 }
    (by
      refine ⟨⟨hIF, hmv.1, hU⟩, le_refl _, rfl, rfl, ?_⟩
      dsimp only
      have h1 : node.g_B.toNat + 1 ≤ st.open_B.length + st.closed_B.length := hnb.2.2.2
      have h2 := hmv.2.1
      omega)
    (by
      intro s a ha hP
      obtain ⟨hPinv, hPmu, hPoF, hPcF, hPg⟩ := hP
      obtain ⟨⟨k, hk1, hk2, hks⟩, hagB, hadir⟩ := mem_expandPancake_B hnb.2.1 ha
      have haS : a.s ∈ S_B := by rw [hks]; exact hclB node.s hnb.1 k hk1 hk2
      have hstep := processMSuccB_cert hdisj hPinv haS hadir hnb.2.2.1 hPg
      refine ⟨hstep.1, le_trans hstep.2.1 hPmu, ?_, ?_, ?_⟩
      · rw [hstep.2.2.1]; exact hPoF
      · rw [hstep.2.2.2.1]; exact hPcF
      · have h3 := hstep.2.2.2.2
        omega)
  refine ⟨hfold.1, ?_, hfold.2.2.1, hfold.2.2.2.1⟩
  have hmu1 : muMme S_F S_B { st with open_B := setErase st.open_B node, closed_B := setInsert st.closed_B node, nodes_expanded := st.nodes_expanded + 1 } + 1 = muMme S_F S_B st := by
    unfold muMme
    dsimp only
    omega
  have := hfold.2.1
  omega

/-- When `mmeStep` exits, it returns the current bound and counter. -/
theorem mmeStep_inl_eq (eps : Int) (gap_x : Nat) {st : MState} {r : Int × Int}
    (hstep : mmeStep eps gap_x st = Sum.inl r) : r = (st.U, st.nodes_expanded) := by
  unfold mmeStep at hstep
  dsimp only at hstep
  split at hstep
  · exact (Sum.inl.inj hstep).symm
  · split at hstep
    · exact (Sum.inl.inj hstep).symm
    · split at hstep <;> cases hstep

/-- One non-exiting `mme` loop step on a pair of disjoint flip-closed
certificate sets preserves the certificate invariant and strictly decreases
the measure. -/
theorem mmeStep_cert {S_F S_B : List (List Int)}
    (hdisj : ∀ s ∈ S_F, s ∉ S_B)
    (hclF : ∀ s ∈ S_F, ∀ k, 1 ≤ k → k < s.length - 1 → flip s k ∈ S_F)
    (hclB : ∀ s ∈ S_B, ∀ k, 1 ≤ k → k < s.length - 1 → flip s k ∈ S_B)
    (eps : Int) (gap_x : Nat) {st st' : MState}
    (hI : mmeCertInv S_F S_B st) (hstep : mmeStep eps gap_x st = Sum.inr st') :
    mmeCertInv S_F S_B st' ∧ muMme S_F S_B st' < muMme S_F S_B st := by
  unfold mmeStep at hstep
  dsimp only at hstep
  split at hstep
  · exact absurd hstep (by simp)
  · rename_i hne
    have hFne : st.open_F ≠ [] := by
      intro h
      exact hne (by rw [h]; rfl)
    have hBne : st.open_B ≠ [] := by
      intro h
      apply hne
      rw [h]
      simp [List.isEmpty]
    split at hstep
    · exact absurd hstep (by simp)
    · split at hstep
      · have hst' := Sum.inr.inj hstep
        rw [← hst']
        have h := mmeExpandF_cert hdisj hclF gap_x ⟨hI.1, hI.2.1, hI.2.2⟩
          (scan_opt_mem eps .F hFne)
        exact ⟨h.1, h.2.1⟩
      · have hst' := Sum.inr.inj hstep
        rw [← hst']
        have h := mmeExpandB_cert hdisj hclB gap_x ⟨hI.1, hI.2.1, hI.2.2⟩
          (scan_opt_mem eps .B hBne)
        exact ⟨h.1, h.2.1⟩

/-- With fuel exceeding the measure, the `mme` loop on a pair of disjoint
flip-closed certificate sets terminates and returns the sentinel. -/
theorem mmeLoop_cert {S_F S_B : List (List Int)}
    (hdisj : ∀ s ∈ S_F, s ∉ S_B)
    (hclF : ∀ s ∈ S_F, ∀ k, 1 ≤ k → k < s.length - 1 → flip s k ∈ S_F)
    (hclB : ∀ s ∈ S_B, ∀ k, 1 ≤ k → k < s.length - 1 → flip s k ∈ S_B)
    (eps : Int) (gap_x : Nat) :
    ∀ n (st : MState), mmeCertInv S_F S_B st → muMme S_F S_B st < n →
      ∃ e, mmeLoop eps gap_x n st = some (INT_MAX, e) := by
  intro n
  induction n with
  | zero => intro st _ h; omega
  | succ n ih =>
      intro st hI hmu
      rcases hstep : mmeStep eps gap_x st with r | st'
      · have hr := mmeStep_inl_eq eps gap_x hstep
        refine ⟨st.nodes_expanded, ?_⟩
        unfold mmeLoop
        rw [hstep, hr, hI.2.2]
      · have hc := mmeStep_cert hdisj hclF hclB eps gap_x hI hstep
        obtain ⟨e, he⟩ := ih st' hc.1 (by omega)
        refine ⟨e, ?_⟩
        unfold mmeLoop
        rw [hstep]
        exact he

/-- Whatever the fuel, a completed `mme` run from a state satisfying the
certificate invariant returns the sentinel cost. -/
theorem mmeLoop_sentinel {S_F S_B : List (List Int)}
    (hdisj : ∀ s ∈ S_F, s ∉ S_B)
    (hclF : ∀ s ∈ S_F, ∀ k, 1 ≤ k → k < s.length - 1 → flip s k ∈ S_F)
    (hclB : ∀ s ∈ S_B, ∀ k, 1 ≤ k → k < s.length - 1 → flip s k ∈ S_B)
    (eps : Int) (gap_x : Nat) :
    ∀ n (st : MState) (r : Int × Int), mmeCertInv S_F S_B st →
      mmeLoop eps gap_x n st = some r → r.1 = INT_MAX := by
  intro n
  induction n with
  | zero => intro st r _ h; cases h
  | succ n ih =>
      intro st r hI hrun
      unfold mmeLoop at hrun
      rcases hstep : mmeStep eps gap_x st with q | st' <;> rw [hstep] at hrun
      · have hq := mmeStep_inl_eq eps gap_x hstep
        have hr : q = r := Option.some.inj hrun
        rw [← hr, hq]
        exact hI.2.2
      · exact ih st' r (mmeStep_cert hdisj hclF hclB eps gap_x hI hstep).1 hrun

/-- The initial `mme` state satisfies the certificate invariant whenever
the two roots lie in their certificate sets. -/
theorem mmeInit_cert {S_F S_B : List (List Int)}
    (initial_state goal_state : List Int) (gap_x : Nat)
    (hiS : initial_state ∈ S_F) (hgS : goal_state ∈ S_B) :
    mmeCertInv S_F S_B (mmeInit initial_state goal_state gap_x) := by
  unfold mmeInit
  refine ⟨⟨?_, ?_⟩, ⟨?_, ?_⟩, rfl⟩
  · intro x hx
    have hx1 : x = ⟨initial_state, 0, 0, h_pancake initial_state .F gap_x,
        h_pancake initial_state .B gap_x, .F⟩ := by
      simpa using hx
    subst hx1
    exact ⟨hiS, rfl, le_refl _, by simp⟩
  · simp [statesOf]
  · intro x hx
    have hx1 : x = ⟨goal_state, 0, 0, 0, 0, .B⟩ := by
      simpa using hx
    subst hx1
    exact ⟨hgS, rfl, le_refl _, by simp⟩
  · simp [statesOf]

theorem is_solved_eq {s g : List Int} (h : is_solved s g = true) : s = g := by
  unfold is_solved at h
  split at h
  · cases h
  · rename_i hlen
    have hlen' : s.length = g.length := by omega
    have hall := List.all_eq_true.mp h
    apply List.ext_getElem hlen'
    intro i h1 h2
    have hmem : (s[i], g[i]) ∈ List.zip s g := by
      rw [List.mem_iff_getElem]
      refine ⟨i, by simp [List.length_zip]; omega, ?_⟩
      simp [List.getElem_zip]
    have := hall _ hmem
    simpa using this

theorem mem_foldl_setInsert {f : Nat → Node} :
    ∀ {l : List Nat} {acc : List Node} {x : Node},
      x ∈ l.foldl (fun a k => setInsert a (f k)) acc →
      x ∈ acc ∨ ∃ k, k ∈ l ∧ x = f k := by
  intro l
  induction l with
  | nil => intro acc x hx; exact .inl hx
  | cons k l ih =>
      intro acc x hx
      rcases ih hx with h | h
      · rcases mem_setInsert h with h1 | h1
        · exact .inl h1
        · exact .inr ⟨k, List.mem_cons_self k l, h1⟩
      · obtain ⟨k', hk', he⟩ := h
        exact .inr ⟨k', List.mem_cons_of_mem _ hk', he⟩

/-- Successors of a forward `gbfhs` expansion: each is a legal flip of the
expanded state at forward cost `g_F + 1`, tagged forward, with both
heuristic fields recomputed from the state. -/
theorem mem_expandNode_F {node : Node} {x : Node}
    (hdir : node.dir = .F) (hx : x ∈ expandNode node) :
    (∃ k, 1 ≤ k ∧ k < node.s.length - 1 ∧ x.s = flip node.s k) ∧
    x.g_F = node.g_F + 1 ∧ x.g_B = node.g_B ∧ x.dir = .F ∧
    x.h_F = h_gbfhs x.s .F := by
  unfold expandNode at hx
  simp only [hdir] at hx
  rcases mem_foldl_setInsert hx with h | h
  · cases h
  · obtain ⟨k, hk, rfl⟩ := h
    rw [List.mem_range'] at hk
    obtain ⟨i, hi, rfl⟩ := hk
    exact ⟨⟨1 + 1 * i, by omega, by omega, rfl⟩, rfl, rfl, rfl, rfl⟩

/-- Backward counterpart of `mem_expandNode_F`. -/
theorem mem_expandNode_B {node : Node} {x : Node}
    (hdir : node.dir = .B) (hx : x ∈ expandNode node) :
    (∃ k, 1 ≤ k ∧ k < node.s.length - 1 ∧ x.s = flip node.s k) ∧
    x.g_B = node.g_B + 1 ∧ x.g_F = node.g_F ∧ x.dir = .B ∧
    x.h_B = h_gbfhs x.s .B := by
  unfold expandNode at hx
  simp only [hdir] at hx
  rcases mem_foldl_setInsert hx with h | h
  · cases h
  · obtain ⟨k, hk, rfl⟩ := h
    rw [List.mem_range'] at hk
    obtain ⟨i, hi, rfl⟩ := hk
    exact ⟨⟨1 + 1 * i, by omega, by omega, rfl⟩, rfl, rfl, rfl, rfl⟩

theorem mem_setErase_of (t : List Node) {x y : Node} (hy : y ∈ t)
    (h : nodeEqual y x = false) : y ∈ setErase t x :=
  List.mem_filter.mpr ⟨hy, by simp [h]⟩

theorem setErase_pred {t : List Node} {x y : Node} (hy : y ∈ setErase t x) :
    nodeEqual y x = false := by
  have := List.of_mem_filter hy
  simpa using this

theorem pickNode_mem {eF eB : List Node} {i : Nat} {node : Node}
    (h : pickNode eF eB i = some node) : node ∈ eF ∨ node ∈ eB := by
  unfold pickNode at h
  split at h
  · exact .inl (List.get?_mem h)
  · exact .inr (List.get?_mem h)

theorem pickNode_zero {eF eB : List Node}
    (h : (eF.isEmpty && eB.isEmpty) = false) :
    ∃ node, pickNode eF eB 0 = some node := by
  unfold pickNode
  cases eF with
  | cons a t => exact ⟨a, by simp⟩
  | nil =>
      cases eB with
      | cons b u => exact ⟨b, by simp⟩
      | nil => simp [List.isEmpty] at h

theorem list_isEmpty_eq_nil {l : List Node} (h : l.isEmpty = true) : l = [] := by
  cases l with
  | nil => rfl
  | cons a t => simp [List.isEmpty] at h

theorem foldr_max_bounds (l : List Int) (a : Int) :
    (∀ x ∈ l, x ≤ l.foldr max a) ∧ a ≤ l.foldr max a := by
  induction l with
  | nil => exact ⟨fun x hx => absurd hx (List.not_mem_nil x), le_refl a⟩
  | cons b t ih =>
      refine ⟨?_, le_trans ih.2 (le_max_right _ _)⟩
      intro x hx
      rcases List.mem_cons.mp hx with rfl | hx
      · exact le_max_left _ _
      · exact le_trans (ih.1 x hx) (le_max_right _ _)

/-- Forward successor processing in `gbfhs` either leaves the state
untouched — in particular whenever the successor's state is already open or
closed, because the skip test compares the successor's own `g_F`, which
`expand` just set to the candidate value — or, on a fresh state with no
opposite-open collision, appends the successor to the open set and, when
within the limits, to the expandable set. -/
theorem processSuccF_cases (fLim gLim_F : Int) (node : Node) (st : GState) (s_node : Node)
    (hcol : setFind st.open_B { s_node with g_F := node.g_F + 1 } = none)
    (hsg : s_node.g_F = node.g_F + 1) :
    processSuccF fLim gLim_F node st s_node = st ∨
    (setCount st.open_F s_node = false ∧ setCount st.closed_F s_node = false ∧
     processSuccF fLim gLim_F node st s_node =
       { st with
         open_F := setInsert st.open_F { s_node with g_F := node.g_F + 1 },
         expandable_F :=
           if is_expandable { s_node with g_F := node.g_F + 1 } .F fLim gLim_F then
             setInsert st.expandable_F { s_node with g_F := node.g_F + 1 }
           else st.expandable_F }) := by
  unfold processSuccF
  dsimp only
  by_cases hstp : st.stopped = true
  · rw [if_pos hstp]
    exact .inl rfl
  · rw [if_neg hstp]
    by_cases hm : (setCount st.open_F s_node || setCount st.closed_F s_node) = true
    · have hcnd : ((setCount st.open_F s_node || setCount st.closed_F s_node) &&
          decide (node.g_F + 1 ≥ s_node.g_F)) = true := by
        rw [hm, hsg]
        simp
      rw [if_pos hcnd]
      exact .inl rfl
    · have hm' : (setCount st.open_F s_node || setCount st.closed_F s_node) = false := by
        simpa using hm
      have hcnd : ¬ (((setCount st.open_F s_node || setCount st.closed_F s_node) &&
          decide (node.g_F + 1 ≥ s_node.g_F)) = true) := by
        rw [hm']
        simp
      rw [if_neg hcnd, if_neg hm, if_neg hm, hcol]
      exact .inr ⟨(Bool.or_eq_false_iff.mp hm').1, (Bool.or_eq_false_iff.mp hm').2, rfl⟩

/-- Backward counterpart of `processSuccF_cases`.  The source's backward
skip test also reads `g_F` (the C2 slip); a backward successor keeps its
parent's `g_F`, so the test `g_F(node) + 1 >= g_F(s_node)` is again a
tautology and known states are always skipped. -/
theorem processSuccB_cases (fLim gLim_B : Int) (node : Node) (st : GState) (s_node : Node)
    (hcol : setFind st.open_F { s_node with g_B := node.g_B + 1 } = none)
    (hsg : s_node.g_F = node.g_F) :
    processSuccB fLim gLim_B node st s_node = st ∨
    (setCount st.open_B s_node = false ∧ setCount st.closed_B s_node = false ∧
     processSuccB fLim gLim_B node st s_node =
       { st with
         open_B := setInsert st.open_B { s_node with g_B := node.g_B + 1 },
         expandable_B :=
           if is_expandable { s_node with g_B := node.g_B + 1 } .B fLim gLim_B then
             setInsert st.expandable_B { s_node with g_B := node.g_B + 1 }
           else st.expandable_B }) := by
  unfold processSuccB
  dsimp only
  by_cases hstp : st.stopped = true
  · rw [if_pos hstp]
    exact .inl rfl
  · rw [if_neg hstp]
    by_cases hm : (setCount st.open_B s_node || setCount st.closed_B s_node) = true
    · have hcnd : ((setCount st.open_B s_node || setCount st.closed_B s_node) &&
          decide (node.g_F + 1 ≥ s_node.g_F)) = true := by
        rw [hm, hsg]
        simp
      rw [if_pos hcnd]
      exact .inl rfl
    · have hm' : (setCount st.open_B s_node || setCount st.closed_B s_node) = false := by
        simpa using hm
      have hcnd : ¬ (((setCount st.open_B s_node || setCount st.closed_B s_node) &&
          decide (node.g_F + 1 ≥ s_node.g_F)) = true) := by
        rw [hm']
        simp
      rw [if_neg hcnd, if_neg hm, if_neg hm, hcol]
      exact .inr ⟨(Bool.or_eq_false_iff.mp hm').1, (Bool.or_eq_false_iff.mp hm').2, rfl⟩

/-- Processing one forward `gbfhs` successor on a pair of disjoint
certificate sets: the run invariant is preserved (the opposite-open
collision always fails, so `best` and the stop flag are untouched), all
other sets are untouched, the forward discovered count does not shrink, and
when the expandable set tracked the open set exactly and the new node is
within the limits it still does. -/
theorem processSuccF_certG {S_F S_B : List (List Int)} {H : Int}
    (hdisj : ∀ s ∈ S_F, s ∉ S_B) (fLim gLim_F : Int) {st : GState}
    (hI : gCertInv S_F S_B H st)
    {node s_node : Node} (hS : s_node.s ∈ S_F) (hdir : s_node.dir = .F)
    (hsg : s_node.g_F = node.g_F + 1) (hh : s_node.h_F ≤ H) (hg0 : 0 ≤ node.g_F)
    (hgb : node.g_F.toNat + 1 ≤ st.open_F.length + st.closed_F.length) :
    gCertInv S_F S_B H (processSuccF fLim gLim_F node st s_node) ∧
    (processSuccF fLim gLim_F node st s_node).open_B = st.open_B ∧
    (processSuccF fLim gLim_F node st s_node).closed_B = st.closed_B ∧
    (processSuccF fLim gLim_F node st s_node).closed_F = st.closed_F ∧
    (processSuccF fLim gLim_F node st s_node).expandable_B = st.expandable_B ∧
    st.open_F.length + st.closed_F.length ≤
      (processSuccF fLim gLim_F node st s_node).open_F.length +
        (processSuccF fLim gLim_F node st s_node).closed_F.length ∧
    (st.expandable_F = st.open_F →
      is_expandable { s_node with g_F := node.g_F + 1 } .F fLim gLim_F = true →
      (processSuccF fLim gLim_F node st s_node).expandable_F =
        (processSuccF fLim gLim_F node st s_node).open_F) := by
  obtain ⟨hIF, hIB, hHF, hHB, hEF, hEB, hbest, hstop⟩ := hI
  have hcol : setFind st.open_B { s_node with g_F := node.g_F + 1 } = none := by
    apply setFind_eq_none
    apply setCount_false_iff.mpr
    intro z hz he
    have hzB : z.s ∈ S_B := (hIB.1 z (List.mem_append.mpr (.inl hz))).1
    rw [he] at hzB
    exact hdisj s_node.s hS hzB
  rcases processSuccF_cases fLim gLim_F node st s_node hcol hsg with hres | ⟨hopf, hclf, hres⟩
  · rw [hres]
    exact ⟨⟨hIF, hIB, hHF, hHB, hEF, hEB, hbest, hstop⟩, rfl, rfl, rfl, rfl, le_refl _,
      fun heq _ => heq⟩
  · have hops1 : setCount st.open_F { s_node with g_F := node.g_F + 1 } = false := by
      rw [setCount_state_congr st.open_F
        (show ({ s_node with g_F := node.g_F + 1 } : Node).s = s_node.s from rfl)]
      exact hopf
    have hcls1 : setCount st.closed_F { s_node with g_F := node.g_F + 1 } = false := by
      rw [setCount_state_congr st.closed_F
        (show ({ s_node with g_F := node.g_F + 1 } : Node).s = s_node.s from rfl)]
      exact hclf
    have hrel := relax_sideInv_new S_F .F (fun x => x.g_F) hIF
      (show ({ s_node with g_F := node.g_F + 1 } : Node).s ∈ S_F from hS)
      (show ({ s_node with g_F := node.g_F + 1 } : Node).dir = .F from hdir)
      (show (0:Int) ≤ node.g_F + 1 by omega)
      (show ((node.g_F + 1 : Int)).toNat + 1 ≤
        st.open_F.length + st.closed_F.length + 1 by omega)
      hops1 hcls1
    rw [hres, setInsert_eq_append hops1]
    refine ⟨⟨hrel.1, hIB, ?_, hHB, ?_, hEB, hbest, hstop⟩, rfl, rfl, rfl, rfl, ?_, ?_⟩
    · -- heuristic bound on the grown forward sets
      intro x hx
      dsimp only at hx
      rcases List.mem_append.mp hx with hx1 | hx2
      · rcases List.mem_append.mp hx1 with hx3 | hx3
        · exact hHF x (List.mem_append.mpr (.inl hx3))
        · have hx4 : x = { s_node with g_F := node.g_F + 1 } := List.mem_singleton.mp hx3
          subst hx4
          exact hh
      · exact hHF x (List.mem_append.mpr (.inr hx2))
    · -- the expandable set still sits inside the open set
      intro x hx
      dsimp only at hx ⊢
      split at hx
      · rcases mem_setInsert hx with hx1 | hx1
        · exact List.mem_append.mpr (.inl (hEF x hx1))
        · exact List.mem_append.mpr (.inr (by rw [hx1]; exact List.mem_singleton.mpr rfl))
      · exact List.mem_append.mpr (.inl (hEF x hx))
    · dsimp only
      simp only [List.length_append, List.length_singleton]
      omega
    · intro heq hins
      dsimp only
      rw [if_pos hins, heq, setInsert_eq_append (heq ▸ hops1)]

/-- Backward counterpart of `processSuccF_certG`. -/
theorem processSuccB_certG {S_F S_B : List (List Int)} {H : Int}
    (hdisj : ∀ s ∈ S_F, s ∉ S_B) (fLim gLim_B : Int) {st : GState}
    (hI : gCertInv S_F S_B H st)
    {node s_node : Node} (hS : s_node.s ∈ S_B) (hdir : s_node.dir = .B)
    (hsg : s_node.g_F = node.g_F) (hh : s_node.h_B ≤ H) (hg0 : 0 ≤ node.g_B)
    (hgb : node.g_B.toNat + 1 ≤ st.open_B.length + st.closed_B.length) :
    gCertInv S_F S_B H (processSuccB fLim gLim_B node st s_node) ∧
    (processSuccB fLim gLim_B node st s_node).open_F = st.open_F ∧
    (processSuccB fLim gLim_B node st s_node).closed_F = st.closed_F ∧
    (processSuccB fLim gLim_B node st s_node).closed_B = st.closed_B ∧
    (processSuccB fLim gLim_B node st s_node).expandable_F = st.expandable_F ∧
    st.open_B.length + st.closed_B.length ≤
      (processSuccB fLim gLim_B node st s_node).open_B.length +
        (processSuccB fLim gLim_B node st s_node).closed_B.length ∧
    (st.expandable_B = st.open_B →
      is_expandable { s_node with g_B := node.g_B + 1 } .B fLim gLim_B = true →
      (processSuccB fLim gLim_B node st s_node).expandable_B =
        (processSuccB fLim gLim_B node st s_node).open_B) := by
  obtain ⟨hIF, hIB, hHF, hHB, hEF, hEB, hbest, hstop⟩ := hI
  have hcol : setFind st.open_F { s_node with g_B := node.g_B + 1 } = none := by
    apply setFind_eq_none
    apply setCount_false_iff.mpr
    intro z hz he
    have hzF : z.s ∈ S_F := (hIF.1 z (List.mem_append.mpr (.inl hz))).1
    rw [he] at hzF
    exact hdisj s_node.s hzF hS
  rcases processSuccB_cases fLim gLim_B node st s_node hcol hsg with hres | ⟨hopf, hclf, hres⟩
  · rw [hres]
    exact ⟨⟨hIF, hIB, hHF, hHB, hEF, hEB, hbest, hstop⟩, rfl, rfl, rfl, rfl, le_refl _,
      fun heq _ => heq⟩
  · have hops1 : setCount st.open_B { s_node with g_B := node.g_B + 1 } = false := by
      rw [setCount_state_congr st.open_B
        (show ({ s_node with g_B := node.g_B + 1 } : Node).s = s_node.s from rfl)]
      exact hopf
    have hcls1 : setCount st.closed_B { s_node with g_B := node.g_B + 1 } = false := by
      rw [setCount_state_congr st.closed_B
        (show ({ s_node with g_B := node.g_B + 1 } : Node).s = s_node.s from rfl)]
      exact hclf
    have hrel := relax_sideInv_new S_B .B (fun x => x.g_B) hIB
      (show ({ s_node with g_B := node.g_B + 1 } : Node).s ∈ S_B from hS)
      (show ({ s_node with g_B := node.g_B + 1 } : Node).dir = .B from hdir)
      (show (0:Int) ≤ node.g_B + 1 by omega)
      (show ((node.g_B + 1 : Int)).toNat + 1 ≤
        st.open_B.length + st.closed_B.length + 1 by omega)
      hops1 hcls1
    rw [hres, setInsert_eq_append hops1]
    refine ⟨⟨hIF, hrel.1, hHF, ?_, hEF, ?_, hbest, hstop⟩, rfl, rfl, rfl, rfl, ?_, ?_⟩
    · -- heuristic bound on the grown backward sets
      intro x hx
      dsimp only at hx
      rcases List.mem_append.mp hx with hx1 | hx2
      · rcases List.mem_append.mp hx1 with hx3 | hx3
        · exact hHB x (List.mem_append.mpr (.inl hx3))
        · have hx4 : x = { s_node with g_B := node.g_B + 1 } := List.mem_singleton.mp hx3
          subst hx4
          exact hh
      · exact hHB x (List.mem_append.mpr (.inr hx2))
    · -- the expandable set still sits inside the open set
      intro x hx
      dsimp only at hx ⊢
      split at hx
      · rcases mem_setInsert hx with hx1 | hx1
        · exact List.mem_append.mpr (.inl (hEB x hx1))
        · exact List.mem_append.mpr (.inr (by rw [hx1]; exact List.mem_singleton.mpr rfl))
      · exact List.mem_append.mpr (.inl (hEB x hx))
    · dsimp only
      simp only [List.length_append, List.length_singleton]
      omega
    · intro heq hins
      dsimp only
      rw [if_pos hins, heq, setInsert_eq_append (heq ▸ hops1)]

/-- One forward `gbfhs` expansion on a pair of disjoint, forward-flip-closed
certificate sets: the run invariant is preserved, exactly one more
certificate state is closed (the measure drops by one), the backward sets
are untouched, and at a level whose limits dominate the certificate the
expandable set keeps tracking the open set exactly. -/
theorem expandOneG_certF {S_F S_B : List (List Int)} {H : Int}
    (hdisj : ∀ s ∈ S_F, s ∉ S_B)
    (hclF : ∀ s ∈ S_F, ∀ k, 1 ≤ k → k < s.length - 1 → flip s k ∈ S_F)
    (hHF : ∀ s ∈ S_F, h_gbfhs s .F ≤ H)
    (fLim gLim_F gLim_B : Int) {st : GState} (hI : gCertInv S_F S_B H st)
    {node : Node} (hnode : node ∈ st.expandable_F) :
    gCertInv S_F S_B H (expandOneG fLim gLim_F gLim_B node st) ∧
    muG S_F S_B (expandOneG fLim gLim_F gLim_B node st) + 1 = muG S_F S_B st ∧
    (expandOneG fLim gLim_F gLim_B node st).open_B = st.open_B ∧
    (expandOneG fLim gLim_F gLim_B node st).closed_B = st.closed_B ∧
    (expandOneG fLim gLim_F gLim_B node st).expandable_B = st.expandable_B ∧
    ((S_F.length : Int) + H ≤ fLim → (S_F.length : Int) < gLim_F →
      st.expandable_F = st.open_F →
      (expandOneG fLim gLim_F gLim_B node st).expandable_F =
        (expandOneG fLim gLim_F gLim_B node st).open_F) := by
  obtain ⟨hIF, hIB, hHFi, hHBi, hEF, hEB, hbest, hstop⟩ := hI
  have hnodeOp : node ∈ st.open_F := hEF node hnode
  have hnb := hIF.1 node (List.mem_append.mpr (.inl hnodeOp))
  have hmv := move_sideInv S_F .F (fun x => x.g_F) hIF hnodeOp
  have hnd0 := hIF.2
  rw [statesOf_append, List.nodup_append] at hnd0
  obtain ⟨hndop, hndcl, hdisjF⟩ := hnd0
  have hclcnt : setCount st.closed_F node = false :=
    setCount_false_iff.mpr fun z hz he =>
      hdisjF (mem_statesOf.mpr ⟨node, hnodeOp, rfl⟩) (mem_statesOf.mpr ⟨z, hz, he⟩)
  have hclins : setInsert st.closed_F node = st.closed_F ++ [node] :=
    setInsert_eq_append hclcnt
  simp only [expandOneG, hnb.2.1]
  have hfold := foldl_preserves_mem
    (fun s : GState => gCertInv S_F S_B H s ∧
      s.open_B = st.open_B ∧ s.closed_B = st.closed_B ∧
      s.expandable_B = st.expandable_B ∧
      s.closed_F = setInsert st.closed_F node ∧
      node.g_F.toNat + 1 ≤ s.open_F.length + s.closed_F.length ∧
      ((S_F.length : Int) + H ≤ fLim → (S_F.length : Int) < gLim_F →
        st.expandable_F = st.open_F → s.expandable_F = s.open_F))
    (processSuccF fLim gLim_F node) (expandNode node)
    { st with expandable_F := setErase st.expandable_F node, open_F := setErase st.open_F node, closed_F := setInsert st.closed_F node }
    (by
      refine ⟨⟨hmv.1, hIB, ?_, hHBi, ?_, hEB, hbest, hstop⟩, rfl, rfl, rfl, rfl, ?_, ?_⟩
      · intro x hx
        dsimp only at hx
        rcases List.mem_append.mp hx with hx1 | hx2
        · exact hHFi x (List.mem_append.mpr (.inl (mem_setErase hx1)))
        · rcases mem_setInsert hx2 with hx3 | hx3
          · exact hHFi x (List.mem_append.mpr (.inr hx3))
          · rw [hx3]
            exact hHFi node (List.mem_append.mpr (.inl hnodeOp))
      · intro x hx
        dsimp only at hx ⊢
        exact mem_setErase_of st.open_F (hEF x (mem_setErase hx)) (setErase_pred hx)
      · dsimp only
        have hb0 : node.g_F.toNat + 1 ≤ st.open_F.length + st.closed_F.length := hnb.2.2.2
        have hb1 := hmv.2.1
        omega
      · intro h1 h2 heq
        dsimp only
        rw [heq])
    (by
      intro s a ha hP
      obtain ⟨hPinv, hPoB, hPcB, hPeB, hPcF, hPb, hPcond⟩ := hP
      obtain ⟨⟨k, hk1, hk2, hks⟩, hagF, hagB, hadir, hahF⟩ := mem_expandNode_F hnb.2.1 ha
      have haS : a.s ∈ S_F := by rw [hks]; exact hclF node.s hnb.1 k hk1 hk2
      have hah : a.h_F ≤ H := by rw [hahF]; exact hHF a.s haS
      have hstep := processSuccF_certG hdisj fLim gLim_F hPinv haS hadir hagF hah
        (show (0:Int) ≤ node.g_F from hnb.2.2.1) hPb
      refine ⟨hstep.1, ?_, ?_, ?_, ?_, ?_, ?_⟩
      · rw [hstep.2.1]; exact hPoB
      · rw [hstep.2.2.1]; exact hPcB
      · rw [hstep.2.2.2.2.1]; exact hPeB
      · rw [hstep.2.2.2.1]; exact hPcF
      · have h3 := hstep.2.2.2.2.2.1
        omega
      · intro h1 h2 heq
        have hsE := hPcond h1 h2 heq
        have hdle : s.open_F.length + s.closed_F.length ≤ S_F.length := by
          have := length_le_of_nodup_states (fun x hx => (hPinv.1.1 x hx).1) hPinv.1.2
          simpa [List.length_append] using this
        have hg0 : (0:Int) ≤ node.g_F := hnb.2.2.1
        have hf1 : (node.g_F + 1 : Int) + a.h_F ≤ fLim := by
          have : (node.g_F + 1 : Int) ≤ (S_F.length : Int) := by omega
          omega
        have hf2 : (node.g_F + 1 : Int) < gLim_F := by omega
        have hins : is_expandable { a with g_F := node.g_F + 1 } .F fLim gLim_F = true := by
          simp only [is_expandable, Bool.and_eq_true, decide_eq_true_eq]
          exact ⟨hf1, hf2⟩
        exact hstep.2.2.2.2.2.2 hsE hins)
  refine ⟨hfold.1, ?_, hfold.2.1, hfold.2.2.1, hfold.2.2.2.1, hfold.2.2.2.2.2.2⟩
  have hdle' : (((expandNode node).foldl (processSuccF fLim gLim_F node)
      { st with expandable_F := setErase st.expandable_F node, open_F := setErase st.open_F node, closed_F := setInsert st.closed_F node }).open_F.length +
      ((expandNode node).foldl (processSuccF fLim gLim_F node)
      { st with expandable_F := setErase st.expandable_F node, open_F := setErase st.open_F node, closed_F := setInsert st.closed_F node }).closed_F.length) ≤ S_F.length := by
    have := length_le_of_nodup_states (fun x hx => (hfold.1.1.1 x hx).1) hfold.1.1.2
    simpa [List.length_append] using this
  have hclF' := hfold.2.2.2.2.1
  have hclB' := hfold.2.2.1
  unfold muG
  rw [hclF', hclB', hclins]
  simp only [List.length_append, List.length_singleton]
  rw [hclF', hclins] at hdle'
  simp only [List.length_append, List.length_singleton] at hdle'
  omega

/-- Backward counterpart of `expandOneG_certF`. -/
theorem expandOneG_certB {S_F S_B : List (List Int)} {H : Int}
    (hdisj : ∀ s ∈ S_F, s ∉ S_B)
    (hclB : ∀ s ∈ S_B, ∀ k, 1 ≤ k → k < s.length - 1 → flip s k ∈ S_B)
    (hHB : ∀ s ∈ S_B, h_gbfhs s .B ≤ H)
    (fLim gLim_F gLim_B : Int) {st : GState} (hI : gCertInv S_F S_B H st)
    {node : Node} (hnode : node ∈ st.expandable_B) :
    gCertInv S_F S_B H (expandOneG fLim gLim_F gLim_B node st) ∧
    muG S_F S_B (expandOneG fLim gLim_F gLim_B node st) + 1 = muG S_F S_B st ∧
    (expandOneG fLim gLim_F gLim_B node st).open_F = st.open_F ∧
    (expandOneG fLim gLim_F gLim_B node st).closed_F = st.closed_F ∧
    (expandOneG fLim gLim_F gLim_B node st).expandable_F = st.expandable_F ∧
    ((S_B.length : Int) + H ≤ fLim → (S_B.length : Int) < gLim_B →
      st.expandable_B = st.open_B →
      (expandOneG fLim gLim_F gLim_B node st).expandable_B =
        (expandOneG fLim gLim_F gLim_B node st).open_B) := by
  obtain ⟨hIF, hIB, hHFi, hHBi, hEF, hEB, hbest, hstop⟩ := hI
  have hnodeOp : node ∈ st.open_B := hEB node hnode
  have hnb := hIB.1 node (List.mem_append.mpr (.inl hnodeOp))
  have hmv := move_sideInv S_B .B (fun x => x.g_B) hIB hnodeOp
  have hnd0 := hIB.2
  rw [statesOf_append, List.nodup_append] at hnd0
  obtain ⟨hndop, hndcl, hdisjB⟩ := hnd0
  have hclcnt : setCount st.closed_B node = false :=
    setCount_false_iff.mpr fun z hz he =>
      hdisjB (mem_statesOf.mpr ⟨node, hnodeOp, rfl⟩) (mem_statesOf.mpr ⟨z, hz, he⟩)
  have hclins : setInsert st.closed_B node = st.closed_B ++ [node] :=
    setInsert_eq_append hclcnt
  simp only [expandOneG, hnb.2.1]
  have hfold := foldl_preserves_mem
    (fun s : GState => gCertInv S_F S_B H s ∧
      s.open_F = st.open_F ∧ s.closed_F = st.closed_F ∧
      s.expandable_F = st.expandable_F ∧
      s.closed_B = setInsert st.closed_B node ∧
      node.g_B.toNat + 1 ≤ s.open_B.length + s.closed_B.length ∧
      ((S_B.length : Int) + H ≤ fLim → (S_B.length : Int) < gLim_B →
        st.expandable_B = st.open_B → s.expandable_B = s.open_B))
    (processSuccB fLim gLim_B node) (expandNode node)
    { st with expandable_B := setErase st.expandable_B node, open_B := setErase st.open_B node, closed_B := setInsert st.closed_B node }
    (by
      refine ⟨⟨hIF, hmv.1, hHFi, ?_, hEF, ?_, hbest, hstop⟩, rfl, rfl, rfl, rfl, ?_, ?_⟩
      · intro x hx
        dsimp only at hx
        rcases List.mem_append.mp hx with hx1 | hx2
        · exact hHBi x (List.mem_append.mpr (.inl (mem_setErase hx1)))
        · rcases mem_setInsert hx2 with hx3 | hx3
          · exact hHBi x (List.mem_append.mpr (.inr hx3))
          · rw [hx3]
            exact hHBi node (List.mem_append.mpr (.inl hnodeOp))
      · intro x hx
        dsimp only at hx ⊢
        exact mem_setErase_of st.open_B (hEB x (mem_setErase hx)) (setErase_pred hx)
      · dsimp only
        have hb0 : node.g_B.toNat + 1 ≤ st.open_B.length + st.closed_B.length := hnb.2.2.2
        have hb1 := hmv.2.1
        omega
      · intro h1 h2 heq
        dsimp only
        rw [heq])
    (by
      intro s a ha hP
      obtain ⟨hPinv, hPoF, hPcF, hPeF, hPcB, hPb, hPcond⟩ := hP
      obtain ⟨⟨k, hk1, hk2, hks⟩, hagB, hagF, hadir, hahB⟩ := mem_expandNode_B hnb.2.1 ha
      have haS : a.s ∈ S_B := by rw [hks]; exact hclB node.s hnb.1 k hk1 hk2
      have hah : a.h_B ≤ H := by rw [hahB]; exact hHB a.s haS
      have hstep := processSuccB_certG hdisj fLim gLim_B hPinv haS hadir hagF hah
        (show (0:Int) ≤ node.g_B from hnb.2.2.1) hPb
      refine ⟨hstep.1, ?_, ?_, ?_, ?_, ?_, ?_⟩
      · rw [hstep.2.1]; exact hPoF
      · rw [hstep.2.2.1]; exact hPcF
      · rw [hstep.2.2.2.2.1]; exact hPeF
      · rw [hstep.2.2.2.1]; exact hPcB
      · have h3 := hstep.2.2.2.2.2.1
        omega
      · intro h1 h2 heq
        have hsE := hPcond h1 h2 heq
        have hdle : s.open_B.length + s.closed_B.length ≤ S_B.length := by
          have := length_le_of_nodup_states (fun x hx => (hPinv.2.1.1 x hx).1) hPinv.2.1.2
          simpa [List.length_append] using this
        have hg0 : (0:Int) ≤ node.g_B := hnb.2.2.1
        have hf1 : (node.g_B + 1 : Int) + a.h_B ≤ fLim := by
          have : (node.g_B + 1 : Int) ≤ (S_B.length : Int) := by omega
          omega
        have hf2 : (node.g_B + 1 : Int) < gLim_B := by omega
        have hins : is_expandable { a with g_B := node.g_B + 1 } .B fLim gLim_B = true := by
          simp only [is_expandable, Bool.and_eq_true, decide_eq_true_eq]
          exact ⟨hf1, hf2⟩
        exact hstep.2.2.2.2.2.2 hsE hins)
  refine ⟨hfold.1, ?_, hfold.2.1, hfold.2.2.1, hfold.2.2.2.1, hfold.2.2.2.2.2.2⟩
  have hdle2 : (((expandNode node).foldl (processSuccB fLim gLim_B node)
      { st with expandable_B := setErase st.expandable_B node, open_B := setErase st.open_B node, closed_B := setInsert st.closed_B node }).open_B.length +
      ((expandNode node).foldl (processSuccB fLim gLim_B node)
      { st with expandable_B := setErase st.expandable_B node, open_B := setErase st.open_B node, closed_B := setInsert st.closed_B node }).closed_B.length) ≤ S_B.length := by
    have := length_le_of_nodup_states (fun x hx => (hfold.1.2.1.1 x hx).1) hfold.1.2.1.2
    simpa [List.length_append] using this
  have hclB2 := hfold.2.2.2.2.1
  have hclF2 := hfold.2.2.1
  unfold muG
  rw [hclB2, hclF2, hclins]
  simp only [List.length_append, List.length_singleton]
  rw [hclB2, hclins] at hdle2
  simp only [List.length_append, List.length_singleton] at hdle2
  omega

theorem levelLoop_exit (fLim gLim_F gLim_B : Int) (picks : List Nat) (st : GState)
    (hst : st.stopped = false)
    (hemp : (st.expandable_F.isEmpty && st.expandable_B.isEmpty) = true) :
    levelLoop fLim gLim_F gLim_B picks st = some (st, picks) := by
  unfold levelLoop
  rw [if_neg (by simp [hst]), if_pos hemp]

theorem levelLoop_cons_step (fLim gLim_F gLim_B : Int) (i : Nat) (rest : List Nat)
    (st : GState) (hst : st.stopped = false)
    (hemp : (st.expandable_F.isEmpty && st.expandable_B.isEmpty) = false)
    {node : Node} (hpick : pickNode st.expandable_F st.expandable_B i = some node) :
    levelLoop fLim gLim_F gLim_B (i :: rest) st =
      levelLoop fLim gLim_F gLim_B rest (expandOneG fLim gLim_F gLim_B node st) := by
  conv_lhs => unfold levelLoop
  rw [if_neg (by simp [hst]), if_neg (by simp [hemp])]
  dsimp only
  rw [hpick]

/-- A completed `expand_level` loop on a pair of disjoint flip-closed
certificate sets preserves the run invariant and does not increase the
measure, whatever the pick sequence. -/
theorem levelLoop_certG {S_F S_B : List (List Int)} {H : Int}
    (hdisj : ∀ s ∈ S_F, s ∉ S_B)
    (hclF : ∀ s ∈ S_F, ∀ k, 1 ≤ k → k < s.length - 1 → flip s k ∈ S_F)
    (hclB : ∀ s ∈ S_B, ∀ k, 1 ≤ k → k < s.length - 1 → flip s k ∈ S_B)
    (hHF : ∀ s ∈ S_F, h_gbfhs s .F ≤ H) (hHB : ∀ s ∈ S_B, h_gbfhs s .B ≤ H)
    (fLim gLim_F gLim_B : Int) :
    ∀ (picks : List Nat) (st st' : GState) (rest : List Nat),
      gCertInv S_F S_B H st →
      levelLoop fLim gLim_F gLim_B picks st = some (st', rest) →
      gCertInv S_F S_B H st' ∧ muG S_F S_B st' ≤ muG S_F S_B st := by
  intro picks
  induction picks with
  | nil =>
      intro st st' rest hI hrun
      unfold levelLoop at hrun
      split at hrun
      · cases hrun; exact ⟨hI, le_refl _⟩
      · split at hrun
        · cases hrun; exact ⟨hI, le_refl _⟩
        · cases hrun
  | cons i rest ih =>
      intro st st' rest' hI hrun
      unfold levelLoop at hrun
      split at hrun
      · cases hrun; exact ⟨hI, le_refl _⟩
      · split at hrun
        · cases hrun; exact ⟨hI, le_refl _⟩
        · dsimp only at hrun
          rcases hpick : pickNode st.expandable_F st.expandable_B i with _ | node
          · rw [hpick] at hrun; cases hrun
          · rw [hpick] at hrun
            rcases pickNode_mem hpick with hmF | hmB
            · have hc := expandOneG_certF hdisj hclF hHF fLim gLim_F gLim_B hI hmF
              have hrec := ih _ st' rest' hc.1 hrun
              exact ⟨hrec.1, by have := hc.2.1; omega⟩
            · have hc := expandOneG_certB hdisj hclB hHB fLim gLim_F gLim_B hI hmB
              have hrec := ih _ st' rest' hc.1 hrun
              exact ⟨hrec.1, by have := hc.2.1; omega⟩

/-- With a zero-index pick supply exceeding the measure, the
`expand_level` loop on a pair of disjoint flip-closed certificate sets runs
to completion, preserving the run invariant; at a level whose limits
dominate the certificate the expandable sets keep tracking the open sets
exactly, so both empty together with the expandable sets at exit. -/
theorem levelLoop_supply {S_F S_B : List (List Int)} {H : Int}
    (hdisj : ∀ s ∈ S_F, s ∉ S_B)
    (hclF : ∀ s ∈ S_F, ∀ k, 1 ≤ k → k < s.length - 1 → flip s k ∈ S_F)
    (hclB : ∀ s ∈ S_B, ∀ k, 1 ≤ k → k < s.length - 1 → flip s k ∈ S_B)
    (hHF : ∀ s ∈ S_F, h_gbfhs s .F ≤ H) (hHB : ∀ s ∈ S_B, h_gbfhs s .B ≤ H)
    (fLim gLim_F gLim_B : Int) :
    ∀ (M : Nat) (st : GState), gCertInv S_F S_B H st → muG S_F S_B st < M →
      ∃ st' M', levelLoop fLim gLim_F gLim_B (List.replicate M 0) st =
          some (st', List.replicate M' 0) ∧
        gCertInv S_F S_B H st' ∧ M' ≤ M ∧ muG S_F S_B st' < M' ∧
        (st'.expandable_F.isEmpty && st'.expandable_B.isEmpty) = true ∧
        ((S_F.length : Int) + H ≤ fLim → (S_F.length : Int) < gLim_F →
         (S_B.length : Int) + H ≤ fLim → (S_B.length : Int) < gLim_B →
         st.expandable_F = st.open_F → st.expandable_B = st.open_B →
         st'.expandable_F = st'.open_F ∧ st'.expandable_B = st'.open_B) := by
  intro M
  induction M with
  | zero => intro st hI hmu; omega
  | succ M ih =>
      intro st hI hmu
      have hst : st.stopped = false := hI.2.2.2.2.2.2.2
      by_cases hemp : (st.expandable_F.isEmpty && st.expandable_B.isEmpty) = true
      · exact ⟨st, M + 1, levelLoop_exit fLim gLim_F gLim_B _ st hst hemp, hI,
          le_refl _, hmu, hemp, fun _ _ _ _ h1 h2 => ⟨h1, h2⟩⟩
      · have hemp' : (st.expandable_F.isEmpty && st.expandable_B.isEmpty) = false := by
          simpa using hemp
        obtain ⟨node, hpick⟩ := pickNode_zero hemp'
        have hstep : levelLoop fLim gLim_F gLim_B (List.replicate (M + 1) 0) st =
            levelLoop fLim gLim_F gLim_B (List.replicate M 0)
              (expandOneG fLim gLim_F gLim_B node st) := by
          rw [List.replicate_succ]
          exact levelLoop_cons_step fLim gLim_F gLim_B 0 _ st hst hemp' hpick
        rcases pickNode_mem hpick with hmF | hmB
        · have hc := expandOneG_certF hdisj hclF hHF fLim gLim_F gLim_B hI hmF
          obtain ⟨st', M', hrun, hI', hM', hmu', hemp2, hcond⟩ :=
            ih (expandOneG fLim gLim_F gLim_B node st) hc.1 (by have := hc.2.1; omega)
          refine ⟨st', M', by rw [hstep]; exact hrun, hI', by omega, hmu', hemp2, ?_⟩
          intro h1 h2 h3 h4 heF heB
          have heF1 := hc.2.2.2.2.2 h1 h2 heF
          have heB1 : (expandOneG fLim gLim_F gLim_B node st).expandable_B =
              (expandOneG fLim gLim_F gLim_B node st).open_B := by
            rw [hc.2.2.2.2.1, hc.2.2.1, heB]
          exact hcond h1 h2 h3 h4 heF1 heB1
        · have hc := expandOneG_certB hdisj hclB hHB fLim gLim_F gLim_B hI hmB
          obtain ⟨st', M', hrun, hI', hM', hmu', hemp2, hcond⟩ :=
            ih (expandOneG fLim gLim_F gLim_B node st) hc.1 (by have := hc.2.1; omega)
          refine ⟨st', M', by rw [hstep]; exact hrun, hI', by omega, hmu', hemp2, ?_⟩
          intro h1 h2 h3 h4 heF heB
          have heB1 := hc.2.2.2.2.2 h3 h4 heB
          have heF1 : (expandOneG fLim gLim_F gLim_B node st).expandable_F =
              (expandOneG fLim gLim_F gLim_B node st).open_F := by
            rw [hc.2.2.2.2.1, hc.2.2.1, heF]
          exact hcond h1 h2 h3 h4 heF1 heB1

/-- Entering a level (rebuilding the expandable subsets and lowering the
stop flag) preserves the run invariant; when the level's limits dominate
the certificate, the rebuilt expandable sets are the whole open sets. -/
theorem entry_certG {S_F S_B : List (List Int)} {H : Int} (fLim gLim_F gLim_B : Int)
    {st : GState} (hI : gCertInv S_F S_B H st) :
    gCertInv S_F S_B H { st with
      expandable_F := st.open_F.filter fun n => is_expandable n .F fLim gLim_F,
      expandable_B := st.open_B.filter fun n => is_expandable n .B fLim gLim_B,
      stopped := false } ∧
    ((S_F.length : Int) + H ≤ fLim → (S_F.length : Int) < gLim_F →
      st.open_F.filter (fun n => is_expandable n .F fLim gLim_F) = st.open_F) ∧
    ((S_B.length : Int) + H ≤ fLim → (S_B.length : Int) < gLim_B →
      st.open_B.filter (fun n => is_expandable n .B fLim gLim_B) = st.open_B) := by
  obtain ⟨hIF, hIB, hHFi, hHBi, hEF, hEB, hbest, hstop⟩ := hI
  have hdF : st.open_F.length + st.closed_F.length ≤ S_F.length := by
    have := length_le_of_nodup_states (fun x hx => (hIF.1 x hx).1) hIF.2
    simpa [List.length_append] using this
  have hdB : st.open_B.length + st.closed_B.length ≤ S_B.length := by
    have := length_le_of_nodup_states (fun x hx => (hIB.1 x hx).1) hIB.2
    simpa [List.length_append] using this
  refine ⟨⟨hIF, hIB, hHFi, hHBi, ?_, ?_, hbest, rfl⟩, ?_, ?_⟩
  · intro x hx
    exact (List.mem_filter.mp hx).1
  · intro x hx
    exact (List.mem_filter.mp hx).1
  · intro h1 h2
    apply List.filter_eq_self.mpr
    intro x hx
    have hxb := hIF.1 x (List.mem_append.mpr (.inl hx))
    have hxh : x.h_F ≤ H := hHFi x (List.mem_append.mpr (.inl hx))
    have hg : (x.g_F : Int) + 1 ≤ (S_F.length : Int) := by
      have h3 : (0:Int) ≤ x.g_F := hxb.2.2.1
      have h4 : x.g_F.toNat + 1 ≤ st.open_F.length + st.closed_F.length := hxb.2.2.2
      omega
    simp only [is_expandable, Bool.and_eq_true, decide_eq_true_eq]
    exact ⟨by omega, by omega⟩
  · intro h1 h2
    apply List.filter_eq_self.mpr
    intro x hx
    have hxb := hIB.1 x (List.mem_append.mpr (.inl hx))
    have hxh : x.h_B ≤ H := hHBi x (List.mem_append.mpr (.inl hx))
    have hg : (x.g_B : Int) + 1 ≤ (S_B.length : Int) := by
      have h3 : (0:Int) ≤ x.g_B := hxb.2.2.1
      have h4 : x.g_B.toNat + 1 ≤ st.open_B.length + st.closed_B.length := hxb.2.2.2
      omega
    simp only [is_expandable, Bool.and_eq_true, decide_eq_true_eq]
    exact ⟨by omega, by omega⟩

/-- Whatever the fuel and pick sequence, a completed `gbfhs` outer loop run
from a state satisfying the certificate invariant returns the sentinel. -/
theorem gbfhsLoop_sentinel {S_F S_B : List (List Int)} {H : Int}
    (hdisj : ∀ s ∈ S_F, s ∉ S_B)
    (hclF : ∀ s ∈ S_F, ∀ k, 1 ≤ k → k < s.length - 1 → flip s k ∈ S_F)
    (hclB : ∀ s ∈ S_B, ∀ k, 1 ≤ k → k < s.length - 1 → flip s k ∈ S_B)
    (hHF : ∀ s ∈ S_F, h_gbfhs s .F ≤ H) (hHB : ∀ s ∈ S_B, h_gbfhs s .B ≤ H)
    (eps : Int) :
    ∀ (fuel : Nat) (picks : List Nat) (fLim : Int) (st : GState) (r : Int),
      gCertInv S_F S_B H st →
      gbfhsLoop eps fuel picks fLim st = some r → r = INT_MAX := by
  intro fuel
  induction fuel with
  | zero => intro picks fLim st r hI hrun; cases hrun
  | succ fuel ih =>
      intro picks fLim st r hI hrun
      unfold gbfhsLoop at hrun
      split at hrun
      · cases hrun; exact hI.2.2.2.2.2.2.1
      · split at hrun
        · cases hrun; exact hI.2.2.2.2.2.2.1
        · dsimp only at hrun
          rcases hlev : expand_level fLim (split (fLim - eps + 1) 0 0).1
              (split (fLim - eps + 1) 0 0).2 picks st with _ | p
          · rw [hlev] at hrun; cases hrun
          · obtain ⟨st1, picks1⟩ := p
            rw [hlev] at hrun
            unfold expand_level at hlev
            have hI1 := (levelLoop_certG hdisj hclF hclB hHF hHB fLim
              (split (fLim - eps + 1) 0 0).1 (split (fLim - eps + 1) 0 0).2
              picks _ st1 picks1
              (entry_certG fLim (split (fLim - eps + 1) 0 0).1
                (split (fLim - eps + 1) 0 0).2 hI).1 hlev).1
            dsimp only at hrun
            split at hrun
            · cases hrun; exact hI1.2.2.2.2.2.2.1
            · exact ih picks1 (fLim + 1) st1 r hI1 hrun

/-- With fuel covering the remaining levels and a zero-index pick supply
exceeding the measure, the `gbfhs` outer loop on a pair of disjoint
flip-closed certificate sets terminates with the sentinel: once the level
limits dominate the certificate, a completed level empties both open sets
and the next iteration exits. -/
theorem gbfhsLoop_terminates {S_F S_B : List (List Int)} {H : Int}
    (hdisj : ∀ s ∈ S_F, s ∉ S_B)
    (hclF : ∀ s ∈ S_F, ∀ k, 1 ≤ k → k < s.length - 1 → flip s k ∈ S_F)
    (hclB : ∀ s ∈ S_B, ∀ k, 1 ≤ k → k < s.length - 1 → flip s k ∈ S_B)
    (hHF : ∀ s ∈ S_F, h_gbfhs s .F ≤ H) (hHB : ∀ s ∈ S_B, h_gbfhs s .B ≤ H)
    (eps : Int) :
    ∀ (n fuel M : Nat) (fLim : Int) (st : GState),
      gCertInv S_F S_B H st → muG S_F S_B st < M → n + 2 ≤ fuel →
      2 * ((S_F.length : Int) + (S_B.length : Int)) + 1 + eps ≤ fLim + n →
      (S_F.length : Int) + H ≤ fLim + n → (S_B.length : Int) + H ≤ fLim + n →
      gbfhsLoop eps fuel (List.replicate M 0) fLim st = some INT_MAX := by
  intro n
  induction n with
  | zero =>
      intro fuel M fLim st hI hmu hfuel hb1 hb2 hb3
      obtain ⟨f, rfl⟩ : ∃ f, fuel = f + 1 := ⟨fuel - 1, by omega⟩
      have hbest : st.best = INT_MAX := hI.2.2.2.2.2.2.1
      unfold gbfhsLoop
      by_cases hop : (st.open_F.isEmpty || st.open_B.isEmpty) = true
      · rw [if_pos hop, hbest]
      · rw [if_neg hop]
        by_cases hbeq : (st.best == fLim) = true
        · rw [if_pos hbeq, hbest]
        · rw [if_neg hbeq]
          dsimp only
          unfold expand_level
          -- the level limits dominate the certificate
          have hnn : (0:Int) ≤ fLim - eps + 1 := by omega
          have htd : Int.tdiv (fLim - eps + 1) 2 = (fLim - eps + 1) / 2 :=
            Int.tdiv_eq_ediv hnn (by omega)
          have hsplit1 : (split (fLim - eps + 1) 0 0).1 =
              (fLim - eps + 1) - (fLim - eps + 1) / 2 := by
            simp [split, htd]
          have hsplit2 : (split (fLim - eps + 1) 0 0).2 = (fLim - eps + 1) / 2 := by
            simp [split, htd]
          have hglF : (S_F.length : Int) < (split (fLim - eps + 1) 0 0).1 := by
            rw [hsplit1]
            omega
          have hglB : (S_B.length : Int) < (split (fLim - eps + 1) 0 0).2 := by
            rw [hsplit2]
            omega
          have hbf : (S_F.length : Int) + H ≤ fLim := by omega
          have hbb : (S_B.length : Int) + H ≤ fLim := by omega
          have hentry := entry_certG fLim (split (fLim - eps + 1) 0 0).1
            (split (fLim - eps + 1) 0 0).2 hI
          obtain ⟨st1, M1, hrun, hI1, hM1, hmu1, hemp1, hcond1⟩ :=
            levelLoop_supply hdisj hclF hclB hHF hHB fLim
              (split (fLim - eps + 1) 0 0).1 (split (fLim - eps + 1) 0 0).2 M
              { st with
                expandable_F := st.open_F.filter fun n =>
                  is_expandable n .F fLim (split (fLim - eps + 1) 0 0).1,
                expandable_B := st.open_B.filter fun n =>
                  is_expandable n .B fLim (split (fLim - eps + 1) 0 0).2,
                stopped := false }
              hentry.1 hmu
          rw [hrun]
          dsimp only
          have hbest1 : st1.best = INT_MAX := hI1.2.2.2.2.2.2.1
          by_cases hbeq1 : (st1.best == fLim) = true
          · rw [if_pos hbeq1, hbest1]
          · rw [if_neg hbeq1]
            -- the level was full: both open sets are now empty
            have heqs := hcond1 hbf hglF hbb hglB (hentry.2.1 hbf hglF)
              (hentry.2.2 hbb hglB)
            have hboth : st1.expandable_F.isEmpty = true ∧
                st1.expandable_B.isEmpty = true := by
              simpa using hemp1
            have hempF : st1.expandable_F = [] := list_isEmpty_eq_nil hboth.1
            have hempB : st1.expandable_B = [] := list_isEmpty_eq_nil hboth.2
            have hoF : st1.open_F = [] := by rw [← heqs.1, hempF]
            obtain ⟨f2, rfl⟩ : ∃ f2, f = f2 + 1 := ⟨f - 1, by omega⟩
            unfold gbfhsLoop
            rw [if_pos (by rw [hoF]; rfl), hbest1]
  | succ n ih =>
      intro fuel M fLim st hI hmu hfuel hb1 hb2 hb3
      obtain ⟨f, rfl⟩ : ∃ f, fuel = f + 1 := ⟨fuel - 1, by omega⟩
      have hbest : st.best = INT_MAX := hI.2.2.2.2.2.2.1
      unfold gbfhsLoop
      by_cases hop : (st.open_F.isEmpty || st.open_B.isEmpty) = true
      · rw [if_pos hop, hbest]
      · rw [if_neg hop]
        by_cases hbeq : (st.best == fLim) = true
        · rw [if_pos hbeq, hbest]
        · rw [if_neg hbeq]
          dsimp only
          unfold expand_level
          have hentry := entry_certG fLim (split (fLim - eps + 1) 0 0).1
            (split (fLim - eps + 1) 0 0).2 hI
          obtain ⟨st1, M1, hrun, hI1, hM1, hmu1, hemp1, hcond1⟩ :=
            levelLoop_supply hdisj hclF hclB hHF hHB fLim
              (split (fLim - eps + 1) 0 0).1 (split (fLim - eps + 1) 0 0).2 M
              { st with
                expandable_F := st.open_F.filter fun n =>
                  is_expandable n .F fLim (split (fLim - eps + 1) 0 0).1,
                expandable_B := st.open_B.filter fun n =>
                  is_expandable n .B fLim (split (fLim - eps + 1) 0 0).2,
                stopped := false }
              hentry.1 hmu
          rw [hrun]
          dsimp only
          have hbest1 : st1.best = INT_MAX := hI1.2.2.2.2.2.2.1
          by_cases hbeq1 : (st1.best == fLim) = true
          · rw [if_pos hbeq1, hbest1]
          · rw [if_neg hbeq1]
            exact ih f M1 (fLim + 1) st1 hI1 hmu1 (by omega)
              (by push_cast at hb1 ⊢; omega)
              (by push_cast at hb2 ⊢; omega)
              (by push_cast at hb3 ⊢; omega)

/-- The initial `gbfhs` state satisfies the certificate invariant whenever
the two roots lie in their certificate sets and `H` dominates the forward
heuristic over `S_F` (the backward root's heuristic fields are zeroed by
the source). -/
theorem gInit_certG {S_F S_B : List (List Int)} {H : Int}
    (initial_state goal_state : List Int)
    (hiS : initial_state ∈ S_F) (hgS : goal_state ∈ S_B)
    (hHF : ∀ s ∈ S_F, h_gbfhs s .F ≤ H) (hH0 : 0 ≤ H) :
    gCertInv S_F S_B H ⟨INT_MAX,
      [⟨initial_state, 0, 0, h_gbfhs initial_state .F, h_gbfhs initial_state .B, .F⟩],
      [⟨goal_state, 0, 0, 0, 0, .B⟩], [], [], [], [], false⟩ := by
  refine ⟨⟨?_, ?_⟩, ⟨?_, ?_⟩, ?_, ?_, ?_, ?_, rfl, rfl⟩
  · intro x hx
    have hx1 : x = ⟨initial_state, 0, 0, h_gbfhs initial_state .F,
        h_gbfhs initial_state .B, .F⟩ := by simpa using hx
    subst hx1
    exact ⟨hiS, rfl, le_refl _, by simp⟩
  · simp [statesOf]
  · intro x hx
    have hx1 : x = ⟨goal_state, 0, 0, 0, 0, .B⟩ := by simpa using hx
    subst hx1
    exact ⟨hgS, rfl, le_refl _, by simp⟩
  · simp [statesOf]
  · intro x hx
    have hx1 : x = ⟨initial_state, 0, 0, h_gbfhs initial_state .F,
        h_gbfhs initial_state .B, .F⟩ := by simpa using hx
    subst hx1
    exact hHF initial_state hiS
  · intro x hx
    have hx1 : x = ⟨goal_state, 0, 0, 0, 0, .B⟩ := by simpa using hx
    subst hx1
    exact hH0
  · intro x hx
    cases hx
  · intro x hx
    cases hx

/-- Claim C7: a finite unreachable instance is presented by a separation
certificate — finite flip-closed state sets `S_F ∋ initial` and
`S_B ∋ goal` with no common state, which is exactly unreachability of the
goal from the initial state within a finite flip-closed state space.  On
every such instance both controllers terminate: suitable fuel (and, for
`gbfhs`, a canonical all-zero pick supply) makes them return, and the
returned cost is the unsolvable sentinel `INT_MAX`; moreover every
completed run, whatever the fuel and pick sequence, returns the sentinel —
the bound is never lowered because no collision ever occurs, and the loops
exit once a level empties the open sets. -/
theorem C7_unreachable_instances_terminate_with_sentinel
    (S_F S_B : List (List Int)) (initial_state goal_state : List Int)
    (eps : Int) (gap_x : Nat)
    (hiS : initial_state ∈ S_F) (hgS : goal_state ∈ S_B)
    (hdisj : ∀ s ∈ S_F, s ∉ S_B)
    (hclF : ∀ s ∈ S_F, ∀ k, k < s.length → 1 ≤ k → k < s.length - 1 → flip s k ∈ S_F)
    (hclB : ∀ s ∈ S_B, ∀ k, k < s.length → 1 ≤ k → k < s.length - 1 → flip s k ∈ S_B) :
    (∃ fuel e, mme fuel initial_state goal_state eps gap_x = some (INT_MAX, e)) ∧
    (∀ fuel r, mme fuel initial_state goal_state eps gap_x = some r → r.1 = INT_MAX) ∧
    (∃ fuel M, gbfhs fuel (List.replicate M 0) initial_state goal_state eps =
        some INT_MAX) ∧
    (∀ (fuel : Nat) (picks : List Nat) (r : Int),
        gbfhs fuel picks initial_state goal_state eps = some r → r = INT_MAX) := by
  have hclF' : ∀ s ∈ S_F, ∀ k, 1 ≤ k → k < s.length - 1 → flip s k ∈ S_F :=
    fun s hs k h1 h2 => hclF s hs k (by omega) h1 h2
  have hclB' : ∀ s ∈ S_B, ∀ k, 1 ≤ k → k < s.length - 1 → flip s k ∈ S_B :=
    fun s hs k h1 h2 => hclB s hs k (by omega) h1 h2
  have hMinit := mmeInit_cert initial_state goal_state gap_x hiS hgS
  have hne : initial_state ≠ goal_state := fun h => hdisj initial_state hiS (h ▸ hgS)
  have hsol : is_solved initial_state goal_state = false := by
    rcases hres : is_solved initial_state goal_state
    · rfl
    · exact absurd (is_solved_eq hres) hne
  obtain ⟨H, hHF, hHB, hH0⟩ :
      ∃ H, (∀ s ∈ S_F, h_gbfhs s .F ≤ H) ∧ (∀ s ∈ S_B, h_gbfhs s .B ≤ H) ∧ 0 ≤ H := by
    refine ⟨((S_F ++ S_B).map fun s => h_gbfhs s .F).foldr max 0, ?_, ?_,
      (foldr_max_bounds _ 0).2⟩
    · intro s hs
      exact (foldr_max_bounds _ 0).1 _
        (List.mem_map.mpr ⟨s, List.mem_append.mpr (.inl hs), rfl⟩)
    · intro s hs
      have hBF : h_gbfhs s .B = h_gbfhs s .F := rfl
      rw [hBF]
      exact (foldr_max_bounds _ 0).1 _
        (List.mem_map.mpr ⟨s, List.mem_append.mpr (.inr hs), rfl⟩)
  have hginit := gInit_certG initial_state goal_state hiS hgS hHF hH0
  refine ⟨?_, ?_, ?_, ?_⟩
  · obtain ⟨e, he⟩ := mmeLoop_cert hdisj hclF' hclB' eps gap_x
      (muMme S_F S_B (mmeInit initial_state goal_state gap_x) + 1)
      (mmeInit initial_state goal_state gap_x) hMinit (by omega)
    exact ⟨muMme S_F S_B (mmeInit initial_state goal_state gap_x) + 1, e, he⟩
  · intro fuel r h
    exact mmeLoop_sentinel hdisj hclF' hclB' eps gap_x fuel _ r hMinit h
  · -- canonical-picks termination of gbfhs
    refine ⟨(max (2 * ((S_F.length : Int) + (S_B.length : Int)) + 1 + eps -
        max (max (h_gbfhs initial_state .F) (h_gbfhs goal_state .B)) eps).toNat
      (max (((S_F.length : Int) + H -
        max (max (h_gbfhs initial_state .F) (h_gbfhs goal_state .B)) eps).toNat)
        (((S_B.length : Int) + H -
        max (max (h_gbfhs initial_state .F) (h_gbfhs goal_state .B)) eps).toNat))) + 2,
      muG S_F S_B ⟨INT_MAX,
        [⟨initial_state, 0, 0, h_gbfhs initial_state .F, h_gbfhs initial_state .B, .F⟩],
        [⟨goal_state, 0, 0, 0, 0, .B⟩], [], [], [], [], false⟩ + 1, ?_⟩
    unfold gbfhs
    rw [hsol, if_neg (by simp)]
    exact gbfhsLoop_terminates hdisj hclF' hclB' hHF hHB eps _ _ _ _ _ hginit
      (by omega) (le_refl _)
      (by
        have h1 := Int.self_le_toNat (2 * ((S_F.length : Int) + (S_B.length : Int)) +
          1 + eps - max (max (h_gbfhs initial_state .F) (h_gbfhs goal_state .B)) eps)
        omega)
      (by
        have h1 := Int.self_le_toNat ((S_F.length : Int) + H -
          max (max (h_gbfhs initial_state .F) (h_gbfhs goal_state .B)) eps)
        omega)
      (by
        have h1 := Int.self_le_toNat ((S_B.length : Int) + H -
          max (max (h_gbfhs initial_state .F) (h_gbfhs goal_state .B)) eps)
        omega)
  · intro fuel picks r h
    unfold gbfhs at h
    rw [hsol, if_neg (by simp)] at h
    exact gbfhsLoop_sentinel hdisj hclF' hclB' hHF hHB eps fuel picks _ _ r hginit h

/-- Witness for C7: the 3-pancake instance `[1, 2, 3] → [1, 3, 2]` with the
two-state flip-closed certificate sets `{[1, 2, 3], [2, 1, 3]}` (even
permutations reachable from the start — the only legal flip is `k = 1`) and
`{[1, 3, 2], [3, 1, 2]}` (the goal's class); all certificate hypotheses are
decidable and hold, so every completed `mme` run on the instance returns
the sentinel. -/
theorem C7_unreachable_instances_terminate_with_sentinel_witness :
    (([1, 2, 3] : List Int) ∈ [[1, 2, 3], [2, 1, 3]]) ∧
    (([1, 3, 2] : List Int) ∈ [[1, 3, 2], [3, 1, 2]]) ∧
    (∀ s ∈ ([[1, 2, 3], [2, 1, 3]] : List (List Int)),
      s ∉ ([[1, 3, 2], [3, 1, 2]] : List (List Int))) ∧
    (∀ s ∈ ([[1, 2, 3], [2, 1, 3]] : List (List Int)),
      ∀ k, k < s.length → 1 ≤ k → k < s.length - 1 →
        flip s k ∈ ([[1, 2, 3], [2, 1, 3]] : List (List Int))) ∧
    (∀ s ∈ ([[1, 3, 2], [3, 1, 2]] : List (List Int)),
      ∀ k, k < s.length → 1 ≤ k → k < s.length - 1 →
        flip s k ∈ ([[1, 3, 2], [3, 1, 2]] : List (List Int))) ∧
    (∀ fuel r, mme fuel [1, 2, 3] [1, 3, 2] 1 0 = some r → r.1 = INT_MAX) :=
  ⟨by decide, by decide, by decide, by decide, by decide,
    (C7_unreachable_instances_terminate_with_sentinel
      [[1, 2, 3], [2, 1, 3]] [[1, 3, 2], [3, 1, 2]] [1, 2, 3] [1, 3, 2] 1 0
      (by decide) (by decide) (by decide) (by decide) (by decide)).2.1⟩

end PancakeSearch
